import Mathlib

/-!
Verification of the content-addressed summarization cache with streaming
pass-through implemented in src/backend/app/main.py.

The Python program manipulates JSON-like documents (dicts, lists, strings,
numbers, booleans, None) read from MongoDB / YAML.  We embed those values as
the inductive type JVal below (numbers are modelled as integers; the
documents this service handles carry no floats).  Python strings are
modelled as lists of characters (Lean's String functions are not
kernel-reducible; List Char keeps every definition executable and every
concrete evaluation checkable by decide/rfl).  Fallible Python code
(attribute errors, type errors) is modelled with Except String; the error
messages are schematic tags ("AttributeError", "TypeError") standing for the
exception class raised by CPython, since the program never inspects message
texts.

External effects are modelled as explicit inputs/outputs: the Mongo stores
are lists of documents, the Redis cache is an association list (None when
the client is unavailable), the Anthropic HTTP calls are parameters
describing the upstream response, and cache writes are returned as explicit
write records.
-/

/-- Python strings, as lists of characters. -/
abbrev Str := List Char

/-- Shorthand turning a Lean string literal into the Str model. -/
def S (s : String) : Str := s.data

mutual
/-- A JSON-like Python value: None, bool, int, str, list, dict. -/
inductive JVal where
  | null : JVal
  | bool (b : Bool) : JVal
  | num (n : Int) : JVal
  | str (s : Str) : JVal
  | arr (xs : JList) : JVal
  | obj (fs : JFields) : JVal
/-- A list of JSON values (spelled out so that all recursion is structural). -/
inductive JList where
  | nil : JList
  | cons (v : JVal) (tl : JList) : JList
/-- Ordered dict fields: insertion-ordered key/value pairs, as in Python 3.7+. -/
inductive JFields where
  | nil : JFields
  | cons (k : Str) (v : JVal) (tl : JFields) : JFields
end

def JList.toList : JList → List JVal
  | .nil => []
  | .cons v tl => v :: tl.toList

def JList.ofList : List JVal → JList
  | [] => .nil
  | v :: t => .cons v (JList.ofList t)

def JFields.toList : JFields → List (Str × JVal)
  | .nil => []
  | .cons k v tl => (k, v) :: tl.toList

def JFields.ofList : List (Str × JVal) → JFields
  | [] => .nil
  | (k, v) :: t => .cons k v (JFields.ofList t)

instance : Inhabited JVal := ⟨JVal.null⟩

instance : Inhabited JList := ⟨JList.nil⟩

instance : Inhabited JFields := ⟨JFields.nil⟩

/-- Build a JSON list from a Lean list. -/
def jarr (xs : List JVal) : JVal := .arr (JList.ofList xs)

/-- Build a JSON dict from a Lean association list. -/
def jobj (fs : List (Str × JVal)) : JVal := .obj (JFields.ofList fs)

/-- Build a JSON string. -/
def jstr (s : String) : JVal := .str (S s)

/-- Python truthiness of a JSON value (None, False, 0, "", [], {} are falsy). -/
def truthy : JVal → Bool
  | .null => false
  | .bool b => b
  | .num n => decide (n ≠ 0)
  | .str s => decide (s ≠ [])
  | .arr .nil => false
  | .arr (.cons _ _) => true
  | .obj .nil => false
  | .obj (.cons _ _ _) => true

/-- First-match association-list lookup, the model of a Python dict read
(dict keys are unique, so first-match agrees with the dict). -/
def jlookup (k : Str) : List (Str × JVal) → Option JVal
  | [] => none
  | p :: t => if p.1 = k then some p.2 else jlookup k t

/-- Python's v.get(k): key lookup on a dict, AttributeError on anything else. -/
def pyGet (v : JVal) (k : Str) : Except String (Option JVal) :=
  match v with
  | .obj fs => .ok (jlookup k fs.toList)
  | _ => .error "AttributeError"

/-- Python's x or d for x an optional value (absent keys read as None). -/
def pyOr (o : Option JVal) (d : JVal) : JVal :=
  match o with
  | some v => if truthy v then v else d
  | none => d

/-- Truthiness of a dict-read result (if x.get(k): ...). -/
def optTruthy (o : Option JVal) : Bool :=
  match o with
  | some v => truthy v
  | none => false

/-- Python iteration: lists yield elements, strings yield 1-char strings,
dicts yield their keys; other values raise TypeError. -/
def pyIter (v : JVal) : Except String (List JVal) :=
  match v with
  | .arr xs => .ok xs.toList
  | .str s => .ok (s.map (fun c => .str [c]))
  | .obj fs => .ok (fs.toList.map (fun p => .str p.1))
  | _ => .error "TypeError"

/-- ASCII upper-casing of one character (the documents are ASCII; Python's
str.upper agrees with this on them). -/
def pyUpperChar (c : Char) : Char :=
  if 97 ≤ c.toNat ∧ c.toNat ≤ 122 then Char.ofNat (c.toNat - 32) else c

/-- Python's str.upper. -/
def pyUpper (s : Str) : Str := s.map pyUpperChar

/-- Python's (x.get(k) or "").upper(): empty string for a falsy field, upper
case for a string, AttributeError for a truthy non-string. -/
def pyGetUpper (v : JVal) (k : Str) : Except String Str := do
  let o ← pyGet v k
  match pyOr o (.str []) with
  | .str s => .ok (pyUpper s)
  | _ => .error "AttributeError"

/-- Whitespace for Python's str.strip (the characters appearing in this
program's data). -/
def pyIsWs (c : Char) : Bool := c = ' ' ∨ c = '\t' ∨ c = '\n' ∨ c = '\r'

/-- Python's str.strip(). -/
def pyStrip (s : Str) : Str :=
  ((s.dropWhile pyIsWs).reverse.dropWhile pyIsWs).reverse

/-- Comma-free decimal rendering of an integer, for Python's str(int). -/
def natToStr (n : Nat) : Str := (Nat.toDigits 10 n)

def intToStr (n : Int) : Str :=
  match n with
  | .ofNat m => natToStr m
  | .negSucc m => '-' :: natToStr (m + 1)

/-- Join a list of strings with a separator, Python's sep.join. -/
def strJoin (sep : Str) : List Str → Str
  | [] => []
  | [x] => x
  | x :: y :: t => x ++ sep ++ strJoin sep (y :: t)

mutual
/-- Python's repr() of a JSON-like value (string escaping inside reprs is not
modelled; no claim depends on repr texts of composite values). -/
def pyRepr : JVal → Str
  | .null => S "None"
  | .bool true => S "True"
  | .bool false => S "False"
  | .num n => intToStr n
  | .str s => '\'' :: s ++ ['\'']
  | .arr xs => S "[" ++ strJoin (S ", ") (pyReprList xs) ++ S "]"
  | .obj fs => ['\x7b'] ++ strJoin (S ", ") (pyReprFields fs) ++ ['\x7d']
def pyReprList : JList → List Str
  | .nil => []
  | .cons v tl => pyRepr v :: pyReprList tl
def pyReprFields : JFields → List Str
  | .nil => []
  | .cons k v tl => ('\'' :: k ++ ['\''] ++ S ": " ++ pyRepr v) :: pyReprFields tl
end

/-- Python's str() of a JSON-like value. -/
def pyStr (v : JVal) : Str :=
  match v with
  | .str s => s
  | _ => pyRepr v

/-- Python's str() of a dict-read result (str(None) = "None"). -/
def pyStrOpt (o : Option JVal) : Str :=
  match o with
  | some v => pyStr v
  | none => S "None"

/-- Lexicographic (code-point) order on Python strings, as used by
json.dumps(..., sort_keys=True). -/
def keyLe : Str → Str → Bool
  | [], _ => true
  | _ :: _, [] => false
  | a :: as, b :: bs =>
    if a < b then true
    else if b < a then false
    else keyLe as bs

/-- Sort dict fields by key, the key ordering of json.dumps(sort_keys=True). -/
def jsort (l : List (Str × JVal)) : List (Str × JVal) :=
  List.insertionSort (fun a b => keyLe a.1 b.1 = true) l

mutual
/-- Canonical form of a JSON value: every dict's fields sorted by key.  This
is the part of json.dumps(obj, sort_keys=True) that decides which inputs
serialize identically; the serialization itself is injective on canonical
forms and is folded into the abstract digest function (see json_sha256). -/
def canonicalize : JVal → JVal
  | .null => .null
  | .bool b => .bool b
  | .num n => .num n
  | .str s => .str s
  | .arr xs => .arr (canonList xs)
  | .obj fs => .obj (JFields.ofList (jsort (canonFields fs)))
def canonList : JList → JList
  | .nil => .nil
  | .cons v tl => .cons (canonicalize v) (canonList tl)
def canonFields : JFields → List (Str × JVal)
  | .nil => []
  | .cons k v tl => (k, canonicalize v) :: canonFields tl
end

/-- Check that a key is absent from an association list. -/
def keyAbsent (k : Str) : List (Str × JVal) → Bool
  | [] => true
  | p :: t => if p.1 = k then false else keyAbsent k t

/-- Duplicate-freedom of an association list's keys. -/
def keysNodup : List (Str × JVal) → Bool
  | [] => true
  | p :: t => keyAbsent p.1 t && keysNodup t

mutual
/-- Every dict anywhere inside the value has duplicate-free keys.  Values
that arise from Python dicts always satisfy this. -/
def wfKeys : JVal → Bool
  | .null => true
  | .bool _ => true
  | .num _ => true
  | .str _ => true
  | .arr xs => wfKeysList xs
  | .obj fs => keysNodup fs.toList && wfKeysFields fs
def wfKeysList : JList → Bool
  | .nil => true
  | .cons v tl => wfKeys v && wfKeysList tl
def wfKeysFields : JFields → Bool
  | .nil => true
  | .cons _ v tl => wfKeys v && wfKeysFields tl
end

/-!
The embedded program.  Each definition below mirrors one function of
src/backend/app/main.py; line references are given in the doc comments.
-/

/-- Truthiness of "x or y" over two optional values (both may be absent). -/
def pyOrOpt (a b : Option JVal) : Option JVal :=
  match a with
  | some v => if truthy v then some v else b
  | none => b

/-- Python equality test of a possibly-None value against a string literal. -/
def optEqStr (o : Option JVal) (s : Str) : Bool :=
  match o with
  | some (.str t) => decide (t = s)
  | _ => false

/-- Truthiness of an optional Python string. -/
def strOptTruthy (o : Option Str) : Bool :=
  match o with
  | some s => decide (s ≠ [])
  | none => false

/-- Python value hashability: dict keys may not be lists or dicts. -/
def jvalHashable : JVal → Bool
  | .arr _ => false
  | .obj _ => false
  | _ => true

/-- Equality of hashable atoms, the equality used by dict keys here (the
Python nuance True == 1 never arises: module ids are strings). -/
def atomEq : JVal → JVal → Bool
  | .null, .null => true
  | .bool a, .bool b => a == b
  | .num a, .num b => a == b
  | .str a, .str b => a == b
  | _, _ => false

/-- Membership by atom equality. -/
def atomMem (v : JVal) : List JVal → Bool
  | [] => false
  | w :: t => atomEq v w || atomMem v t

def idxFind : List (JVal × JVal) → JVal → Option JVal
  | [], _ => none
  | p :: t, k => if atomEq p.1 k then some p.2 else idxFind t k

/-- modules_idx.get(mid): None when mid is None or absent, TypeError when mid
is unhashable (the index never holds a None key: only truthy ids are put). -/
def idxGet (idx : List (JVal × JVal)) (mid : Option JVal) : Except String (Option JVal) :=
  match mid with
  | none => .ok none
  | some m => if jvalHashable m then .ok (idxFind idx m) else .error "TypeError"

/-- Python dict insert: replace in place when the key exists, append to the
insertion order otherwise. -/
def assocPut (idx : List (JVal × JVal)) (k v : JVal) : List (JVal × JVal) :=
  match idx with
  | [] => [(k, v)]
  | p :: t => if atomEq p.1 k then (k, v) :: t else p :: assocPut t k v

/-- _step_synopsis (main.py lines 76-99): one condensed line for a non-module
step. -/
def step_synopsis (step : JVal) : Except String Str := do
  let _ ← pyGetUpper step (S "type")
  let c0 ← pyGet step (S "command")
  let cmd := pyOr c0 (jobj [])
  let ctype ← pyGetUpper cmd (S "type")
  let bits0 : List Str := if ctype ≠ [] then [ctype] else []
  let t0 ← pyGet cmd (S "target")
  let target ← pyGet (pyOr t0 (jobj [])) (S "elementDescriptor")
  let bits1 := if optTruthy target then bits0 ++ [S "target=" ++ pyStrOpt target] else bits0
  let pe ← pyGet cmd (S "pressEnter")
  let bits2 := if optTruthy pe then bits1 ++ [S "pressEnter"] else bits1
  let cc ← pyGet cmd (S "clearContent")
  let bits3 := if optTruthy cc then bits2 ++ [S "clearContent"] else bits2
  let vv ← pyGet cmd (S "value")
  let bits4 :=
    match vv with
    | none => bits3
    | some .null => bits3
    | some v =>
        let vs := pyStr v
        let vs := if vs.length > 80 then vs.take 77 ++ S "…" else vs
        bits3 ++ [S "value=" ++ vs]
  let av ← pyGet cmd (S "assertion")
  let bits5 :=
    if optTruthy av then
      let a := pyStrOpt av
      let a := if a.length > 120 then a.take 117 ++ S "…" else a
      bits4 ++ [S "assertion=" ++ a]
    else bits4
  .ok (strJoin (S ", ") bits5)

def synopsisList : List JVal → Except String (List Str)
  | [] => .ok []
  | s :: t => do
    let l ← step_synopsis s
    let tl ← synopsisList t
    .ok (l :: tl)

/-- Loop body of _summarize_steps (main.py lines 105-114).  A MODULE step
whose id does not resolve hits m.get("steps") with m = None: AttributeError. -/
def summarize_steps_loop (idx : List (JVal × JVal)) : List JVal → Except String (List Str)
  | [] => .ok []
  | s :: rest => do
    let stype ← pyGetUpper s (S "type")
    if stype = S "MODULE" then do
      let mid ← pyGet s (S "moduleId")
      let m ← idxGet idx mid
      match m with
      | none => .error "AttributeError"
      | some mv => do
        let sv ← pyGet mv (S "steps")
        let msteps ← pyIter (pyOr sv (jarr []))
        let lines ← synopsisList msteps
        let tl ← summarize_steps_loop idx rest
        .ok (lines ++ tl)
    else do
      let line ← step_synopsis s
      let tl ← summarize_steps_loop idx rest
      .ok (line :: tl)

/-- _summarize_steps (main.py lines 102-115). -/
def summarize_steps (test : JVal) (idx : List (JVal × JVal)) : Except String (List Str) := do
  let sv ← pyGet test (S "steps")
  let steps ← pyIter (pyOr sv (jarr []))
  summarize_steps_loop idx steps

/-- The env names collected by the comprehension in _build_summary_prompt:
dict elements with a truthy name field. -/
def envNames (envs : List JVal) : List JVal :=
  envs.filterMap (fun e =>
    match e with
    | .obj fs =>
      match jlookup (S "name") fs.toList with
      | some v => if truthy v then some v else none
      | none => none
    | _ => none)

def valsToStrs : List JVal → Except String (List Str)
  | [] => .ok []
  | .str s :: t => do
    let tl ← valsToStrs t
    .ok (s :: tl)
  | _ :: _ => .error "TypeError"

/-- ", ".join over collected values: TypeError unless all are strings. -/
def joinVals (sep : Str) (vs : List JVal) : Except String Str := do
  let ss ← valsToStrs vs
  .ok (strJoin sep ss)

/-- _build_summary_prompt (main.py lines 120-137).  The system text is the
implicit concatenation of the two adjacent Python literals. -/
def build_summary_prompt (test : JVal) (synopsis : List Str) : Except String (Str × Str) := do
  let system := S "You are going to be given a test synopsis and you will need to summarize it." ++
    S "Be concise and factual. Output sections: Purpose, Preconditions, Main Flow, Assertions."
  let n0 ← pyGet test (S "name")
  let name := pyOr n0 (jstr "Unnamed test")
  let d0 ← pyGet test (S "description")
  let description := pyOr d0 (jstr "")
  let e0 ← pyGet test (S "envs")
  let envs ← pyIter (pyOr e0 (jarr []))
  let env_str ← joinVals (S ", ") (envNames envs)
  let lines := [ S "Test: " ++ pyStr name,
      S "Description: " ++ pyStr description,
      if env_str ≠ [] then S "Envs: " ++ env_str else S "Envs: (none)",
      S "Steps (condensed):" ]
  let lines := lines ++ (synopsis.take 120).map (fun x => S "- " ++ x)
  .ok (system, strJoin (S "\n") lines)

/-- _json_sha256 (main.py lines 227-232): sha256 over
json.dumps(obj, sort_keys=True, separators=(",", ":")).  A JVal is always
serializable, so the fallback branch is unreachable.  sort_keys makes the
dumped text a function of the canonical form (canonicalize); the remaining
composition - the order-respecting serialization, which is injective on
canonical forms, followed by SHA-256 - is abstracted as the parameter h.
Claims about digest inequality carry an explicit no-collision hypothesis
for h, the standard idealization of a cryptographic hash. -/
def json_sha256 (h : JVal → Str) (obj : JVal) : Str := h (canonicalize obj)

/-- Loop of _content_hash_from_docs (main.py lines 237-241): collect the raw
document of every resolvable MODULE step; an unresolvable module id hits
m.get("raw") with m = None: AttributeError. -/
def hash_parts (idx : List (JVal × JVal)) : List JVal → Except String (List JVal)
  | [] => .ok []
  | s :: rest => do
    let stype ← pyGetUpper s (S "type")
    if stype = S "MODULE" then do
      let mid ← pyGet s (S "moduleId")
      let m ← idxGet idx mid
      match m with
      | none => .error "AttributeError"
      | some mv => do
        let r ← pyGet mv (S "raw")
        let tl ← hash_parts idx rest
        .ok (r.getD .null :: tl)
    else hash_parts idx rest

/-- The dict {"parts": parts} that _content_hash_from_docs hands to
_json_sha256. -/
def hash_input (test_raw : JVal) (idx : List (JVal × JVal)) : Except String JVal := do
  let sv ← pyGet test_raw (S "steps")
  let steps ← pyIter (pyOr sv (jarr []))
  let ms ← hash_parts idx steps
  .ok (jobj [(S "parts", jarr (test_raw :: ms))])

/-- _content_hash_from_docs (main.py lines 235-242). -/
def content_hash_from_docs (h : JVal → Str) (test_raw : JVal) (idx : List (JVal × JVal)) :
    Except String Str := do
  let v ← hash_input test_raw idx
  .ok (json_sha256 h v)

/-- The Redis key f"summary:{test_id}:{c_hash}". -/
def summaryKey (tid c_hash : Str) : Str := S "summary:" ++ tid ++ S ":" ++ c_hash

def kvGet (m : List (Str × Str)) (k : Str) : Option Str :=
  match m with
  | [] => none
  | p :: t => if p.1 = k then some p.2 else kvGet t k

/-- _get_cached_summary (main.py lines 245-256): None when the client is
absent, the key is missing, or the stored value is empty (the code tests
"if val:" on the fetched bytes). -/
def get_cached_summary (redis : Option (List (Str × Str))) (tid c_hash : Str) : Option Str :=
  match redis with
  | none => none
  | some m =>
    match kvGet m (summaryKey tid c_hash) with
    | some v => if v ≠ [] then some v else none
    | none => none

/-- A Redis SETEX performed by the program, recorded as an explicit effect. -/
structure CacheWrite where
  key : Str
  value : Str
  ttl : Nat
deriving DecidableEq

/-- The TTL constant 7 * 24 * 3600 of _store_cached_summary. -/
def summaryTTL : Nat := 7 * 24 * 3600

/-- _store_cached_summary (main.py lines 259-265): one SETEX when the client
is present, nothing otherwise. -/
def store_cached_summary (redis : Option (List (Str × Str))) (tid c_hash summary : Str) :
    List CacheWrite :=
  match redis with
  | none => []
  | some _ => [⟨summaryKey tid c_hash, summary, summaryTTL⟩]

/-- One server-sent chunk yielded by _anthropic_stream or event_stream.
data v stands for "data: " + json.dumps(v) + two newlines (only this shape
begins with "data: "); done for "event: done..."; error m for
"event: error\ndata: " + json.dumps(m); retry and keepAlive for the two
preamble lines of event_stream. -/
inductive Chunk where
  | data (v : JVal) : Chunk
  | done : Chunk
  | error (msg : Str) : Chunk
  | retry : Chunk
  | keepAlive : Chunk

/-- One line of the upstream SSE body, as iter_lines delivers it: blank
keep-alives, lines without the "data: " prefix, undecodable payloads, and
decoded JSON payloads. -/
inductive UpLine where
  | blank : UpLine
  | noData : UpLine
  | badJson : UpLine
  | payload (p : JVal) : UpLine

/-- How the upstream connection behaves: an HTTP error status with a body, a
connection exception, or a stream of lines optionally cut off by an
exception raised mid-iteration. -/
inductive UpstreamConn where
  | httpError (text : Str) : UpstreamConn
  | connExn (e : Str) : UpstreamConn
  | lines (ls : List UpLine) (midExn : Option Str) : UpstreamConn

/-- How the for-loop over iter_lines ended. -/
inductive LoopEnd where
  | ranOff : LoopEnd
  | returned : LoopEnd
  | raised (e : String) : LoopEnd

/-- The loop body of _anthropic_stream (main.py lines 163-187). -/
def streamLoop : List UpLine → List Chunk × LoopEnd
  | [] => ([], .ranOff)
  | .blank :: rest => streamLoop rest
  | .noData :: rest => streamLoop rest
  | .badJson :: rest => streamLoop rest
  | .payload p :: rest =>
    match pyGet p (S "type") with
    | .error e => ([], .raised e)
    | .ok t0 =>
      match pyGet p (S "event") with
      | .error e => ([], .raised e)
      | .ok e0 =>
        let etype := pyOrOpt t0 e0
        if optEqStr etype (S "content_block_delta") then
          match pyGet p (S "delta") with
          | .error e => ([], .raised e)
          | .ok d0 =>
            match pyOr d0 (jobj []) with
            | .obj dfs =>
              if optEqStr (jlookup (S "type") dfs.toList) (S "text_delta") then
                let text := pyOr (jlookup (S "text") dfs.toList) (jstr "")
                if truthy text then
                  let r := streamLoop rest
                  (Chunk.data text :: r.1, r.2)
                else streamLoop rest
              else streamLoop rest
            | _ => streamLoop rest
        else if optEqStr etype (S "message_stop") then
          ([Chunk.done], .returned)
        else if optEqStr etype (S "error") then
          match pyGet p (S "error") with
          | .error e => ([], .raised e)
          | .ok er0 => ([Chunk.error (pyStr (pyOr er0 p))], .returned)
        else streamLoop rest

/-- _anthropic_stream (main.py lines 140-191), as a function of the upstream
connection behaviour.  Exceptions anywhere inside the with-block are caught
by the outer except and turned into a final error chunk. -/
def anthropic_stream : UpstreamConn → List Chunk
  | .httpError text =>
    [.error (pyStrip (if text ≠ [] then text else S "Anthropic error"))]
  | .connExn e => [.error (S "Upstream error: " ++ e)]
  | .lines ls midExn =>
    match streamLoop ls with
    | (cs, .returned) => cs
    | (cs, .raised e) => cs ++ [.error (S "Upstream error: " ++ S e)]
    | (cs, .ranOff) =>
      match midExn with
      | none => cs ++ [.done]
      | some e => cs ++ [.error (S "Upstream error: " ++ e)]

/-- The outcome of the requests.post of _anthropic_complete: a raised
exception, or a response with status, body text and parsed JSON body
(error when r.json() raises). -/
inductive CompletionResult where
  | exn (e : Str) : CompletionResult
  | resp (status : Nat) (text : Str) (body : Except String JVal) : CompletionResult

/-- The comprehension of _anthropic_complete (lines 214-218) fused with the
join: the text of every dict block typed "text" with truthy text, TypeError
when a collected text is not a string (raised by "\n\n".join). -/
def textBlocks : List JVal → Except String (List Str)
  | [] => .ok []
  | b :: rest =>
    match b with
    | .obj fs =>
      if optEqStr (jlookup (S "type") fs.toList) (S "text") &&
          optTruthy (jlookup (S "text") fs.toList) then
        match jlookup (S "text") fs.toList with
        | some (.str s) => do
          let tl ← textBlocks rest
          .ok (s :: tl)
        | _ => .error "TypeError"
      else textBlocks rest
    | _ => textBlocks rest

/-- The success branch of _anthropic_complete (lines 212-220). -/
def complete_body (data : JVal) : Except String Str := do
  let c0 ← pyGet data (S "content")
  let content ← pyIter (pyOr c0 (jarr []))
  let blocks ← textBlocks content
  let summary := pyStrip (strJoin (S "\n\n") blocks)
  .ok (if summary ≠ [] then summary else S "(No summary returned)")

/-- _anthropic_complete (main.py lines 193-222): total; every failure mode
is folded into a placeholder string. -/
def anthropic_complete (r : CompletionResult) : Str :=
  match r with
  | .exn e => S "(Request error: " ++ e.take 200 ++ S ")"
  | .resp status text body =>
    if status ≥ 400 then S "(Upstream error: " ++ text.take 500 ++ S ")"
    else
      match body with
      | .error e => S "(Request error: " ++ (S e).take 200 ++ S ")"
      | .ok data =>
        match complete_body data with
        | .ok s => s
        | .error e => S "(Request error: " ++ (S e).take 200 ++ S ")"

/-- The texts event_stream buffers: chunks that start with "data: " whose
payload decodes to a string (json.loads inverts json.dumps; the isinstance
check keeps only strings). -/
def chunkBufferText : Chunk → Option Str
  | .data (.str s) => some s
  | _ => none

/-- The observable behaviour of one run of event_stream: the chunks sent to
the caller, the cache writes performed, and whether the upstream generation
service was consumed at all. -/
structure RelayRun where
  sse : List Chunk
  writes : List CacheWrite
  upstreamCalled : Bool

/-- event_stream (main.py lines 384-403).  With a truthy cached value the
relay short-circuits; otherwise it forwards every upstream chunk, buffers
the string payloads of data chunks, and - whenever the buffer is nonempty,
regardless of how the stream ended - stores the concatenation. -/
def event_stream (tid c_hash : Str) (cached : Option Str)
    (redis : Option (List (Str × Str))) (upstream : UpstreamConn) : RelayRun :=
  if strOptTruthy cached then
    ⟨[Chunk.retry, Chunk.keepAlive, Chunk.data (.str (cached.getD [])), Chunk.done], [], false⟩
  else
    let chunks := anthropic_stream upstream
    let buffer := chunks.filterMap chunkBufferText
    ⟨[Chunk.retry, Chunk.keepAlive] ++ chunks,
      if buffer ≠ [] then store_cached_summary redis tid c_hash (strJoin [] buffer) else [],
      true⟩

/-- _extract_module_ids loop (main.py lines 270-276). -/
def extract_ids_loop : List JVal → Except String (List JVal)
  | [] => .ok []
  | s :: rest => do
    let stype ← pyGetUpper s (S "type")
    if stype = S "MODULE" then do
      let mid ← pyGet s (S "moduleId")
      let tl ← extract_ids_loop rest
      .ok (if optTruthy mid then mid.getD .null :: tl else tl)
    else extract_ids_loop rest

/-- _extract_module_ids (main.py lines 268-276). -/
def extract_module_ids (test_raw : JVal) : Except String (List JVal) := do
  let sv ← pyGet test_raw (S "steps")
  let steps ← pyIter (pyOr sv (jarr []))
  extract_ids_loop steps

def dedupGo (seen : List JVal) : List JVal → List JVal
  | [] => []
  | v :: t => if atomMem v seen then dedupGo seen t else v :: dedupGo (v :: seen) t

/-- The set {m for m in module_ids if m}: truthy ids, deduplicated; adding an
unhashable value to a set raises TypeError.  The set's iteration order is
arbitrary in Python; only membership is consumed downstream, so a stable
dedup models it. -/
def mkUniq (ids : List JVal) : Except String (List JVal) :=
  let tr := ids.filter truthy
  if tr.all jvalHashable then .ok (dedupGo [] tr) else .error "TypeError"

def docModuleId (m : JVal) : Option JVal :=
  match m with
  | .obj fs => jlookup (S "moduleId") fs.toList
  | _ => none

/-- The index entry {name, steps or [], path, raw} built per module document
(main.py lines 289-294). -/
def moduleEntry (m : JVal) : JVal :=
  match m with
  | .obj fs =>
    jobj [(S "name", (jlookup (S "name") fs.toList).getD .null),
      (S "steps", pyOr (jlookup (S "steps") fs.toList) (jarr [])),
      (S "path", (jlookup (S "path") fs.toList).getD .null),
      (S "raw", (jlookup (S "raw") fs.toList).getD .null)]
  | _ => .null

def buildIdxGo (acc : List (JVal × JVal)) : List JVal → List (JVal × JVal)
  | [] => acc
  | m :: t =>
    match docModuleId m with
    | some mid => if truthy mid then buildIdxGo (assocPut acc mid (moduleEntry m)) t else buildIdxGo acc t
    | none => buildIdxGo acc t

/-- _load_modules_index_from_mongo_by_ids (main.py lines 279-295).  The
modules store stands for the Mongo modules collection in its natural order;
find with an $in filter returns the matching documents. -/
def load_modules_index (store : List JVal) (module_ids : List JVal) :
    Except String (List (JVal × JVal)) :=
  match module_ids with
  | [] => .ok []
  | _ => do
    let uniq ← mkUniq module_ids
    let mdocs := store.filter (fun m =>
      match docModuleId m with
      | some v => atomMem v uniq
      | none => false)
    .ok (buildIdxGo [] mdocs)

/-- The synopsis, prompts and content hash computed by stream_test_summary
before it opens the response stream (main.py lines 377-381). -/
structure PipelineOut where
  synopsis : List Str
  system : Str
  prompt : Str
  c_hash : Str

def summary_pipeline (h : JVal → Str) (test_doc : JVal) (modulesStore : List JVal) :
    Except String PipelineOut := do
  let mids ← extract_module_ids test_doc
  let idx ← load_modules_index modulesStore mids
  let synopsis ← summarize_steps test_doc idx
  let sp ← build_summary_prompt test_doc synopsis
  let ch ← content_hash_from_docs h test_doc idx
  .ok ⟨synopsis, sp.1, sp.2, ch⟩

/-- test_doc.get("raw") or {} (main.py line 375); Mongo documents are dicts. -/
def test_raw_of (doc : JVal) : JVal :=
  match doc with
  | .obj fs => pyOr (jlookup (S "raw") fs.toList) (jobj [])
  | _ => jobj []

/-- tests_col.find_one({"id": test_id}) over the tests store. -/
def find_test (store : List JVal) (tid : Str) : Option JVal :=
  store.find? (fun d =>
    match d with
    | .obj fs =>
      match jlookup (S "id") fs.toList with
      | some (.str s) => decide (s = tid)
      | _ => false
    | _ => false)

/-- The response of the GET /api/tests/{id}/summary/stream handler: an
HTTPException, a 500 from an unhandled Python exception, or the streaming
response. -/
inductive EndpointResult where
  | httpError (status : Nat) (detail : Str) : EndpointResult
  | serverError (e : String) : EndpointResult
  | streaming (run : RelayRun) : EndpointResult

/-- stream_test_summary (main.py lines 368-410). -/
def stream_test_summary (h : JVal → Str) (mongoUp : Bool)
    (testsStore modulesStore : List JVal) (redis : Option (List (Str × Str)))
    (upstream : UpstreamConn) (test_id : Str) : EndpointResult :=
  if !mongoUp then .httpError 503 (S "Mongo not available")
  else
    match find_test testsStore test_id with
    | none => .httpError 404 (S "Test not found")
    | some doc =>
      let test_doc := test_raw_of doc
      match summary_pipeline h test_doc modulesStore with
      | .error e => .serverError e
      | .ok po =>
        let cached := get_cached_summary redis test_id po.c_hash
        .streaming (event_stream test_id po.c_hash cached redis upstream)

/-- The union of module ids across the prefetched docs (main.py lines
308-311).  The Python code unions sets doc by doc; dedup and hashability
checking happen again inside load_modules_index, so passing the
concatenation is observably identical (same TypeError on an unhashable id,
same membership). -/
def prefetch_mids : List JVal → Except String (List JVal)
  | [] => .ok []
  | d :: rest => do
    let raw := match d with
      | .obj fs => pyOr (jlookup (S "raw") fs.toList) (jobj [])
      | _ => jobj []
    let ms ← extract_module_ids raw
    let tl ← prefetch_mids rest
    .ok (ms ++ tl)

/-- The per-test loop of _prefetch_summaries_for_ids (main.py lines
313-322).  oracle gives the upstream outcome of the n-th completion call of
this run; an unhandled exception kills the background task, keeping the
writes already performed. -/
def prefetch_go (h : JVal → Str) (redis : Option (List (Str × Str)))
    (idx : List (JVal × JVal)) (oracle : Nat → CompletionResult) (calls : Nat) :
    List JVal → List CacheWrite × Option String
  | [] => ([], none)
  | d :: rest =>
    let tid := match d with
      | .obj fs => jlookup (S "id") fs.toList
      | _ => none
    let raw := match d with
      | .obj fs => pyOr (jlookup (S "raw") fs.toList) (jobj [])
      | _ => jobj []
    let work : Except String Str := do
      let syn ← summarize_steps raw idx
      let _ ← build_summary_prompt raw syn
      content_hash_from_docs h raw idx
    match work with
    | .error e => ([], some e)
    | .ok ch =>
      if strOptTruthy (get_cached_summary redis (pyStrOpt tid) ch) then
        prefetch_go h redis idx oracle calls rest
      else
        let summary := anthropic_complete (oracle calls)
        let w := store_cached_summary redis (pyStrOpt tid) ch summary
        let r := prefetch_go h redis idx oracle (calls + 1) rest
        (w ++ r.1, r.2)

/-- _prefetch_summaries_for_ids (main.py lines 298-322). -/
def prefetch_summaries_for_ids (h : JVal → Str) (api_key : Str)
    (testsStore modulesStore : List JVal) (redis : Option (List (Str × Str)))
    (oracle : Nat → CompletionResult) (ids : List Str) :
    List CacheWrite × Option String :=
  match ids with
  | [] => ([], none)
  | _ =>
    if api_key = [] then ([], none)
    else
      let docs := testsStore.filter (fun d =>
        match d with
        | .obj fs =>
          match jlookup (S "id") fs.toList with
          | some (.str s) => ids.any (fun i => decide (i = s))
          | _ => false
        | _ => false)
      let setup : Except String (List (JVal × JVal)) := do
        let mids ← prefetch_mids docs
        load_modules_index modulesStore mids
      match setup with
      | .error e => ([], some e)
      | .ok idx => prefetch_go h redis idx oracle 0 docs

/-- _flush_redis_on_shutdown (main.py lines 413-421): flushdb empties the
whole current Redis database. -/
def flush_redis_on_shutdown (redis : Option (List (Str × Str))) :
    Option (List (Str × Str)) :=
  match redis with
  | none => none
  | some _ => some []

/-!
Definitions supporting the claim statements.
-/

/-- Canonical-form equivalence with well-formed dict keys on both sides:
the relation induced on documents by reordering the fields of any of their
dicts (Python dicts always have duplicate-free keys). -/
def JEqW (a b : JVal) : Prop :=
  canonicalize a = canonicalize b ∧ wfKeys a = true ∧ wfKeys b = true

/-- Optional values related pointwise by JEqW. -/
def OptRelJ (o o' : Option JVal) : Prop :=
  (o = none ∧ o' = none) ∨ ∃ a b, o = some a ∧ o' = some b ∧ JEqW a b

/-- Two module indexes whose lookups are pointwise JEqW-related. -/
def IdxRel (idx idx' : List (JVal × JVal)) : Prop :=
  ∀ k : JVal, OptRelJ (idxFind idx k) (idxFind idx' k)

def idxKeyAbsent (k : JVal) : List (JVal × JVal) → Bool
  | [] => true
  | p :: t => !atomEq p.1 k && idxKeyAbsent k t

/-- Duplicate-freedom of a module index's keys (a Python dict invariant). -/
def idxKeysNodup : List (JVal × JVal) → Bool
  | [] => true
  | p :: t => idxKeyAbsent p.1 t && idxKeysNodup t

/-- The test document contains a well-formed MODULE step referencing module
id M (through the same reads the hashing loop performs). -/
def referencesModule (t : JVal) (M : Str) : Prop :=
  ∃ sv steps s, pyGet t (S "steps") = .ok sv ∧ pyIter (pyOr sv (jarr [])) = .ok steps ∧
    s ∈ steps ∧ pyGetUpper s (S "type") = .ok (S "MODULE") ∧
    pyGet s (S "moduleId") = .ok (some (.str M))

/-- Modelled from the spec: "shouldBypass(test) → bool (true when the test's
advanced options disable caching)".  No code in src/ reads any advanced
option; this predicate only names, for the claim statement, which test
documents the spec's sentence is about. -/
def should_bypass (test_raw : JVal) : Bool :=
  match test_raw with
  | .obj fs =>
    match jlookup (S "advancedOptions") fs.toList with
    | some (.obj afs) => optTruthy (jlookup (S "disableAICaching") afs.toList)
    | _ => false
  | _ => false

/-- A scripted well-formed upstream text-delta event carrying text t. -/
def deltaEvent (t : Str) : UpLine :=
  .payload (jobj [(S "type", jstr "content_block_delta"),
    (S "delta", jobj [(S "type", jstr "text_delta"), (S "text", .str t)])])

/-- A scripted upstream message_stop event. -/
def stopEvent : UpLine := .payload (jobj [(S "type", jstr "message_stop")])

/-- A scripted upstream error event with message m. -/
def errorEvent (m : Str) : UpLine :=
  .payload (jobj [(S "type", jstr "error"), (S "error", .str m)])

/-- A content block is well formed when, if it is a dict typed "text" with a
truthy text field, that text field is a string (what the Anthropic API
guarantees); only such blocks make the join of _anthropic_complete safe. -/
def blockWf (b : JVal) : Bool :=
  match b with
  | .obj fs =>
    if optEqStr (jlookup (S "type") fs.toList) (S "text") &&
        optTruthy (jlookup (S "text") fs.toList) then
      match jlookup (S "text") fs.toList with
      | some (.str _) => true
      | _ => false
    else true
  | _ => true

/-- Written from the spec's words for C9: "concatenates all textual content
blocks from the response body": the nonempty texts of the dict blocks typed
"text", in order. -/
def spec_text_blocks (blocks : List JVal) : List Str :=
  blocks.filterMap (fun b =>
    match b with
    | .obj fs =>
      match jlookup (S "text") fs.toList with
      | some (.str s) =>
        if optEqStr (jlookup (S "type") fs.toList) (S "text") && decide (s ≠ []) then some s
        else none
      | _ => none
    | _ => none)

/-!
Helper lemmas.
-/

theorem JList.toList_ofList : (l : List JVal) → (JList.ofList l).toList = l
  | [] => rfl
  | v :: t => by rw [JList.ofList, JList.toList, JList.toList_ofList t]

theorem JFields.toList_ofList_eq : (l : List (Str × JVal)) → (JFields.ofList l).toList = l
  | [] => rfl
  | (k, v) :: t => by rw [JFields.ofList, JFields.toList, JFields.toList_ofList_eq t]

theorem JList.ofList_toList : (xs : JList) → JList.ofList xs.toList = xs
  | .nil => rfl
  | .cons v tl => by rw [JList.toList, JList.ofList, JList.ofList_toList tl]

theorem JFields.ofList_toList_eq : (fs : JFields) → JFields.ofList fs.toList = fs
  | .nil => rfl
  | .cons k v tl => by rw [JFields.toList, JFields.ofList, JFields.ofList_toList_eq tl]

theorem get_cached_ne_nil (redis : Option (List (Str × Str))) (tid ch v : Str)
    (h : get_cached_summary redis tid ch = some v) : v ≠ [] := by
  cases redis with
  | none => simp [get_cached_summary] at h
  | some m =>
    simp only [get_cached_summary] at h
    cases hk : kvGet m (summaryKey tid ch) with
    | none => rw [hk] at h; simp at h
    | some w =>
      rw [hk] at h
      simp only [] at h
      by_cases hw : w ≠ []
      · rw [if_pos hw] at h
        cases h
        exact hw
      · rw [if_neg hw] at h
        simp at h

theorem streamLoop_delta_cons (t : Str) (ht : t ≠ []) (rest : List UpLine) :
    streamLoop (deltaEvent t :: rest) =
      (Chunk.data (.str t) :: (streamLoop rest).1, (streamLoop rest).2) := by
  cases t with
  | nil => exact absurd rfl ht
  | cons c cs => rfl

theorem streamLoop_deltas (texts : List Str) (h : ∀ t ∈ texts, t ≠ []) :
    streamLoop (texts.map deltaEvent ++ [stopEvent]) =
      (texts.map (fun t => Chunk.data (.str t)) ++ [Chunk.done], .returned) := by
  induction texts with
  | nil => rfl
  | cons t ts ih =>
    rw [List.map_cons, List.cons_append, streamLoop_delta_cons t (h t (by simp)),
      ih (fun x hx => h x (by simp [hx]))]
    simp

theorem filterMap_data_chunks (texts : List Str) :
    List.filterMap chunkBufferText
      (texts.map (fun t => Chunk.data (.str t)) ++ [Chunk.done]) = texts := by
  induction texts with
  | nil => rfl
  | cons t ts ih => simpa [chunkBufferText] using ih

theorem endpoint_cached_hit (h : JVal → Str) (ts ms : List JVal)
    (redis : Option (List (Str × Str))) (up : UpstreamConn) (tid : Str) (doc : JVal)
    (ch v : Str) (hdoc : find_test ts tid = some doc)
    (hpipe : (summary_pipeline h (test_raw_of doc) ms).map PipelineOut.c_hash = .ok ch)
    (hcache : get_cached_summary redis tid ch = some v) :
    stream_test_summary h true ts ms redis up tid =
      .streaming ⟨[Chunk.retry, Chunk.keepAlive, Chunk.data (.str v), Chunk.done], [], false⟩ := by
  cases hsp : summary_pipeline h (test_raw_of doc) ms with
  | error e => rw [hsp] at hpipe; exact absurd hpipe (by simp [Except.map])
  | ok po =>
    rw [hsp] at hpipe
    simp only [Except.map] at hpipe
    cases hpipe
    have hv := get_cached_ne_nil redis tid po.c_hash v hcache
    simp only [stream_test_summary, Bool.not_true, Bool.false_eq_true, if_false, hdoc, hsp]
    simp [event_stream, hcache, strOptTruthy, hv]

theorem c5_relay_success (texts : List Str) (tid ch : Str) (m : List (Str × Str))
    (hne : texts ≠ []) (hall : ∀ t ∈ texts, t ≠ []) :
    event_stream tid ch none (some m)
      (.lines (texts.map deltaEvent ++ [stopEvent]) none) =
      ⟨[Chunk.retry, Chunk.keepAlive] ++ texts.map (fun t => Chunk.data (.str t)) ++ [Chunk.done],
        [⟨summaryKey tid ch, strJoin [] texts, summaryTTL⟩], true⟩ := by
  simp only [event_stream, strOptTruthy, Bool.false_eq_true, if_false]
  simp only [anthropic_stream, streamLoop_deltas texts hall]
  rw [filterMap_data_chunks]
  simp [hne, store_cached_summary]

/-!
Claim theorems.
-/

/-- C1: the claim says that for an upstream error at position k the relay
forwards the k-1 deltas then a terminal error signal and performs no cache
write.  The forwarding part holds, but the code writes the partial buffer:
at the failing input delta("Hello") then error("boom") (k = 2, cache empty,
Redis available) the relay forwards the delta and the terminal error and
nevertheless stores "Hello" under the summary key - event_stream only tests
that its buffer is nonempty, never how the stream ended. -/
theorem c1_error_stream_writes_partial_cache :
    event_stream (S "t1") (S "h1") none (some [])
      (.lines [deltaEvent (S "Hello"), errorEvent (S "boom")] none) =
      ⟨[Chunk.retry, Chunk.keepAlive, Chunk.data (jstr "Hello"), Chunk.error (S "boom")],
        [⟨summaryKey (S "t1") (S "h1"), S "Hello", summaryTTL⟩], true⟩ := rfl

/-- C2: the claim says a MODULE step whose module id is absent from the
lookup produces a single explicit "missing module" marker line and the
condenser returns normally.  The code has no marker at all: at the failing
input (a test with one MODULE step referencing "m1", empty module index)
modules_idx.get(mid) is None and m.get("steps") raises AttributeError, so
the whole operation fails instead of returning any lines. -/
theorem c2_missing_module_raises :
    summarize_steps
      (jobj [(S "steps", jarr [jobj [(S "type", jstr "MODULE"), (S "moduleId", jstr "m1")]])])
      [] = .error "AttributeError" := rfl

/-- C3: the claim says the fingerprinter returns a digest without raising
when a MODULE step's id does not resolve, treating the module as absent.
The code raises: at the failing input (same test document, empty module
index) _content_hash_from_docs hits m.get("raw") with m = None and raises
AttributeError for every digest function h. -/
theorem c3_missing_module_hash_raises (h : JVal → Str) :
    content_hash_from_docs h
      (jobj [(S "steps", jarr [jobj [(S "type", jstr "MODULE"), (S "moduleId", jstr "m1")]])])
      [] = .error "AttributeError" := rfl

/-- C3 witness: the theorem instantiated at a concrete digest function. -/
theorem c3_missing_module_hash_raises_witness :
    content_hash_from_docs (fun _ => S "H")
      (jobj [(S "steps", jarr [jobj [(S "type", jstr "MODULE"), (S "moduleId", jstr "m1")]])])
      [] = .error "AttributeError" :=
  c3_missing_module_hash_raises (fun _ => S "H")

/-- C4: the claim says no cache value is written for a key when the blocking
completion fails, in particular that the prefetch scheduler never stores an
error placeholder.  The code stores whatever _anthropic_complete returns:
at the failing input (one test "t4" with no modules, empty cache, upstream
answering status 500 with body "bad") the prefetch run performs exactly one
write and its value is the error placeholder "(Upstream error: bad)". -/
theorem c4_prefetch_stores_error_placeholder :
    prefetch_summaries_for_ids (fun _ => S "H4") (S "k")
      [jobj [(S "id", jstr "t4"), (S "raw", jobj [])]] [] (some [])
      (fun _ => .resp 500 (S "bad") (.ok .null)) [S "t4"] =
      ([⟨summaryKey (S "t4") (S "H4"), S "(Upstream error: bad)", summaryTTL⟩], none) := rfl

/-- C5 counterexample: the claim quantifies over every N, but at N = 0 (a
done event with no preceding deltas) the relay performs no cache write at
all, while the claim requires exactly one write storing the (empty)
concatenation. -/
theorem c5_zero_deltas_no_write :
    event_stream (S "t5") (S "h5") none (some []) (.lines [stopEvent] none) =
      ⟨[Chunk.retry, Chunk.keepAlive, Chunk.done], [], true⟩ := rfl

/-- C5 witness: the amended theorem applied to the scripted upstream
sequence delta("Hello "), delta("world"), done. -/
theorem c5_relay_success_witness :
    event_stream (S "t5w") (S "h5w") none (some [])
      (.lines ([S "Hello ", S "world"].map deltaEvent ++ [stopEvent]) none) =
      ⟨[Chunk.retry, Chunk.keepAlive] ++
          [S "Hello ", S "world"].map (fun t => Chunk.data (.str t)) ++ [Chunk.done],
        [⟨summaryKey (S "t5w") (S "h5w"), strJoin [] [S "Hello ", S "world"], summaryTTL⟩],
        true⟩ :=
  c5_relay_success [S "Hello ", S "world"] (S "t5w") (S "h5w") []
    (by decide) (by decide)

/-- C6: when a valid cached entry exists for the requested key at relay
start, the relay emits the cached text as one synthetic delta followed by
done, performs no cache write, and never consumes the upstream service. -/
theorem c6_cached_hit_short_circuits (h : JVal → Str) (ts ms : List JVal)
    (redis : Option (List (Str × Str))) (up : UpstreamConn) (tid : Str) (doc : JVal)
    (ch v : Str) (hdoc : find_test ts tid = some doc)
    (hpipe : (summary_pipeline h (test_raw_of doc) ms).map PipelineOut.c_hash = .ok ch)
    (hcache : get_cached_summary redis tid ch = some v) :
    stream_test_summary h true ts ms redis up tid =
      .streaming ⟨[Chunk.retry, Chunk.keepAlive, Chunk.data (.str v), Chunk.done], [], false⟩ :=
  endpoint_cached_hit h ts ms redis up tid doc ch v hdoc hpipe hcache

/-- C6 witness: a concrete test document with an empty raw document, a
constant digest function and a cache holding the key. -/
theorem c6_cached_hit_short_circuits_witness :
    stream_test_summary (fun _ => S "H6") true [jobj [(S "id", jstr "t6"), (S "raw", jobj [])]]
      [] (some [(summaryKey (S "t6") (S "H6"), S "CACHED")]) (.connExn (S "x")) (S "t6") =
      .streaming ⟨[Chunk.retry, Chunk.keepAlive, Chunk.data (.str (S "CACHED")), Chunk.done],
        [], false⟩ :=
  c6_cached_hit_short_circuits (fun _ => S "H6") [jobj [(S "id", jstr "t6"), (S "raw", jobj [])]]
    [] (some [(summaryKey (S "t6") (S "H6"), S "CACHED")]) (.connExn (S "x")) (S "t6")
    (jobj [(S "id", jstr "t6"), (S "raw", jobj [])]) (S "H6") (S "CACHED") rfl rfl rfl

/-- C7 counterexample: a test whose advanced options set the disable-AI-
caching flag still gets a cache hit - nothing in the code reads the flag.
With the flagged document "t7" and a cache holding its key, should_bypass
is true, yet the lookup returns the entry and the endpoint short-circuits
without invoking generation (upstreamCalled = false), contradicting both
"a cache lookup for that test never returns a hit" and "generation is
invoked on every summary request". -/
theorem c7_flagged_test_still_hits_cache :
    should_bypass (test_raw_of (jobj [(S "id", jstr "t7"),
        (S "raw", jobj [(S "advancedOptions", jobj [(S "disableAICaching", .bool true)])])])) =
        true ∧
    get_cached_summary (some [(summaryKey (S "t7") (S "H7"), S "CACHED")]) (S "t7") (S "H7") =
      some (S "CACHED") ∧
    stream_test_summary (fun _ => S "H7") true
      [jobj [(S "id", jstr "t7"),
        (S "raw", jobj [(S "advancedOptions", jobj [(S "disableAICaching", .bool true)])])]]
      [] (some [(summaryKey (S "t7") (S "H7"), S "CACHED")]) (.connExn (S "x")) (S "t7") =
      .streaming ⟨[Chunk.retry, Chunk.keepAlive, Chunk.data (.str (S "CACHED")), Chunk.done],
        [], false⟩ :=
  ⟨rfl, rfl, rfl⟩

/-- C7 amended: the code ignores the disable-AI-caching advanced option
entirely; a flagged test behaves exactly like any other test - its cache
lookup returns a hit whenever a valid entry exists for the key, and
generation is then skipped, not invoked. -/
theorem c7_bypass_flag_ignored (h : JVal → Str) (ts ms : List JVal)
    (redis : Option (List (Str × Str))) (up : UpstreamConn) (tid : Str) (doc : JVal)
    (ch v : Str) (hflag : should_bypass (test_raw_of doc) = true)
    (hdoc : find_test ts tid = some doc)
    (hpipe : (summary_pipeline h (test_raw_of doc) ms).map PipelineOut.c_hash = .ok ch)
    (hcache : get_cached_summary redis tid ch = some v) :
    stream_test_summary h true ts ms redis up tid =
      .streaming ⟨[Chunk.retry, Chunk.keepAlive, Chunk.data (.str v), Chunk.done], [], false⟩ :=
  endpoint_cached_hit h ts ms redis up tid doc ch v hdoc hpipe hcache

/-- C7 witness: the amended theorem applied to the flagged document. -/
theorem c7_bypass_flag_ignored_witness :
    stream_test_summary (fun _ => S "H7") true
      [jobj [(S "id", jstr "t7"),
        (S "raw", jobj [(S "advancedOptions", jobj [(S "disableAICaching", .bool true)])])]]
      [] (some [(summaryKey (S "t7") (S "H7"), S "CACHED")]) (.connExn (S "x")) (S "t7") =
      .streaming ⟨[Chunk.retry, Chunk.keepAlive, Chunk.data (.str (S "CACHED")), Chunk.done],
        [], false⟩ :=
  c7_bypass_flag_ignored (fun _ => S "H7")
    [jobj [(S "id", jstr "t7"),
      (S "raw", jobj [(S "advancedOptions", jobj [(S "disableAICaching", .bool true)])])]]
    [] (some [(summaryKey (S "t7") (S "H7"), S "CACHED")]) (.connExn (S "x")) (S "t7")
    (jobj [(S "id", jstr "t7"),
      (S "raw", jobj [(S "advancedOptions", jobj [(S "disableAICaching", .bool true)])])])
    (S "H7") (S "CACHED") rfl rfl rfl rfl

/-- C9 counterexample: the claim says the upstream-error result embeds the
status.  Two responses with the same body but different statuses (500 and
503) produce the identical result string, so the result cannot embed the
status - only the truncated body appears. -/
theorem c9_status_not_embedded :
    anthropic_complete (.resp 500 (S "same body") (.ok .null)) =
      anthropic_complete (.resp 503 (S "same body") (.ok .null)) := rfl

/-- C10: on shutdown the whole cache database is flushed - after
_flush_redis_on_shutdown every key of the store reads as absent (not only
this application's summary keys, whose lookups also all miss), so no cached
summary survives a restart regardless of its remaining TTL. -/
theorem c10_shutdown_flushes_whole_db :
    (∀ m : List (Str × Str), flush_redis_on_shutdown (some m) = some []) ∧
    (∀ (m : List (Str × Str)) (k : Str),
      (match flush_redis_on_shutdown (some m) with
        | some m2 => kvGet m2 k
        | none => none) = none) ∧
    (∀ (redis : Option (List (Str × Str))) (tid ch : Str),
      get_cached_summary (flush_redis_on_shutdown redis) tid ch = none) := by
  refine ⟨fun m => rfl, fun m k => rfl, fun redis tid ch => ?_⟩
  cases redis with
  | none => rfl
  | some m => rfl

theorem textBlocks_spec (blocks : List JVal) (h : ∀ b ∈ blocks, blockWf b = true) :
    textBlocks blocks = .ok (spec_text_blocks blocks) := by
  induction blocks with
  | nil => rfl
  | cons b t ih =>
    have hb := h b (by simp)
    have ih2 := ih (fun x hx => h x (by simp [hx]))
    cases b with
    | obj fs =>
      by_cases hc : (optEqStr (jlookup (S "type") fs.toList) (S "text") &&
          optTruthy (jlookup (S "text") fs.toList)) = true
      · cases hl : jlookup (S "text") fs.toList with
        | none =>
          rw [hl] at hc
          simp [optTruthy] at hc
        | some v =>
          cases v with
          | str s =>
            have hs : s ≠ [] := by
              rw [hl] at hc
              simp only [Bool.and_eq_true, optTruthy, truthy] at hc
              simpa using hc.2
            have hty : optEqStr (jlookup (S "type") fs.toList) (S "text") = true := by
              simp only [Bool.and_eq_true] at hc
              exact hc.1
            simp only [textBlocks, spec_text_blocks, List.filterMap_cons, hc, if_true, hl, hty,
              hs, ne_eq, not_false_eq_true, decide_True, Bool.and_self, ite_true]
            rw [ih2]
            have hopt : optTruthy (some (JVal.str s)) = true := by
              simp [optTruthy, truthy, hs]
            rw [hopt]
            rfl
          | null =>
            rw [hl] at hc
            simp [optTruthy, truthy] at hc
          | bool bv =>
            exfalso
            simp only [blockWf] at hb
            rw [hl] at hb hc
            rw [hc] at hb
            simp at hb
          | num nv =>
            exfalso
            simp only [blockWf] at hb
            rw [hl] at hb hc
            rw [hc] at hb
            simp at hb
          | arr xs =>
            exfalso
            simp only [blockWf] at hb
            rw [hl] at hb hc
            rw [hc] at hb
            simp at hb
          | obj gs =>
            exfalso
            simp only [blockWf] at hb
            rw [hl] at hb hc
            rw [hc] at hb
            simp at hb
      · have hc2 : (optEqStr (jlookup (S "type") fs.toList) (S "text") &&
            optTruthy (jlookup (S "text") fs.toList)) = false := by
          simpa using hc
        simp only [textBlocks, spec_text_blocks, List.filterMap_cons, hc2, Bool.false_eq_true,
          if_false]
        rw [ih2]
        cases hl : jlookup (S "text") fs.toList with
        | none => simp [spec_text_blocks]
        | some v =>
          cases v with
          | str s =>
            rw [hl] at hc2
            simp only [Bool.and_eq_true, Bool.and_eq_false_iff] at hc2
            rcases hc2 with hc2 | hc2
            · simp [spec_text_blocks, hc2]
            · have : s = [] := by
                simp only [optTruthy, truthy] at hc2
                simpa using hc2
              simp [spec_text_blocks, this]
          | null => simp [spec_text_blocks]
          | bool bv => simp [spec_text_blocks]
          | num nv => simp [spec_text_blocks]
          | arr xs => simp [spec_text_blocks]
          | obj gs => simp [spec_text_blocks]
    | null => simpa [textBlocks, spec_text_blocks, List.filterMap_cons] using ih2
    | bool bv => simpa [textBlocks, spec_text_blocks, List.filterMap_cons] using ih2
    | num nv => simpa [textBlocks, spec_text_blocks, List.filterMap_cons] using ih2
    | str s => simpa [textBlocks, spec_text_blocks, List.filterMap_cons] using ih2
    | arr xs => simpa [textBlocks, spec_text_blocks, List.filterMap_cons] using ih2

/-- C9 amended: the blocking completion never raises and normalizes every
outcome to a string, but the upstream-error result embeds only the
500-character-truncated body, not the status; the request-exception result
embeds the truncated exception text; and on success the result is the
text-typed blocks' texts (spec_text_blocks, written from the claim's words)
joined by blank lines and stripped, defaulting to the "(No summary
returned)" placeholder when no text remains. -/
theorem c9_complete_normalizes_results :
    (∀ (st : Nat) (text : Str) (body : Except String JVal), 400 ≤ st →
      anthropic_complete (.resp st text body) =
        S "(Upstream error: " ++ text.take 500 ++ S ")") ∧
    (∀ e : Str, anthropic_complete (.exn e) =
      S "(Request error: " ++ e.take 200 ++ S ")") ∧
    (∀ (st : Nat) (text : Str) (fs : List (Str × JVal)) (blocks : List JVal),
      st < 400 →
      jlookup (S "content") fs = some (jarr blocks) →
      (∀ b ∈ blocks, blockWf b = true) →
      anthropic_complete (.resp st text (.ok (jobj fs))) =
        (if pyStrip (strJoin (S "\n\n") (spec_text_blocks blocks)) ≠ []
          then pyStrip (strJoin (S "\n\n") (spec_text_blocks blocks))
          else S "(No summary returned)")) := by
  refine ⟨?_, ?_, ?_⟩
  · intro st text body hst
    simp [anthropic_complete, hst]
  · intro e
    rfl
  · intro st text fs blocks hst hcontent hwf
    have hnot : ¬ 400 ≤ st := by omega
    have hiter : pyIter (pyOr (some (jarr blocks)) (jarr [])) = .ok blocks := by
      cases blocks with
      | nil => rfl
      | cons b t =>
        simp [pyOr, truthy, jarr, JList.ofList, pyIter, JList.toList, JList.toList_ofList]
    have h1 : pyGet (jobj fs) (S "content") = .ok (some (jarr blocks)) := by
      simp [pyGet, jobj, JFields.toList_ofList_eq, hcontent]
    have h2 : complete_body (jobj fs) =
        .ok (if pyStrip (strJoin (S "\n\n") (spec_text_blocks blocks)) ≠ []
          then pyStrip (strJoin (S "\n\n") (spec_text_blocks blocks))
          else S "(No summary returned)") := by
      unfold complete_body
      rw [h1]
      simp only [Bind.bind, Except.bind]
      rw [hiter]
      simp only [Except.bind]
      rw [textBlocks_spec blocks hwf]
    simp only [anthropic_complete, ge_iff_le, hnot, if_false, h2]

/-- C9 witness: the amended theorem at concrete inputs - a 500 response with
body "oops", a request exception "down", and a 200 response with one text
block "Hi". -/
theorem c9_complete_normalizes_results_witness :
    (400 ≤ 500 ∧ anthropic_complete (.resp 500 (S "oops") (.ok .null)) =
      S "(Upstream error: " ++ (S "oops").take 500 ++ S ")") ∧
    anthropic_complete (.exn (S "down")) =
      S "(Request error: " ++ (S "down").take 200 ++ S ")" ∧
    anthropic_complete (.resp 200 (S "") (.ok (jobj [(S "content",
        jarr [jobj [(S "type", jstr "text"), (S "text", jstr "Hi")]])]))) =
      (if pyStrip (strJoin (S "\n\n") (spec_text_blocks
            [jobj [(S "type", jstr "text"), (S "text", jstr "Hi")]])) ≠ []
        then pyStrip (strJoin (S "\n\n") (spec_text_blocks
            [jobj [(S "type", jstr "text"), (S "text", jstr "Hi")]]))
        else S "(No summary returned)") :=
  ⟨⟨by omega, c9_complete_normalizes_results.1 500 (S "oops") (.ok .null) (by omega)⟩,
    c9_complete_normalizes_results.2.1 (S "down"),
    c9_complete_normalizes_results.2.2 200 (S "") _ _ (by omega) rfl (by decide)⟩

/-!
Machinery for C8: the sort_keys canonical form.
-/

theorem keyLe_total (a b : Str) : keyLe a b = true ∨ keyLe b a = true := by
  induction a generalizing b with
  | nil => left; rfl
  | cons c cs ih =>
    cases b with
    | nil => right; rfl
    | cons d ds =>
      rcases lt_trichotomy c d with h | h | h
      · left; simp [keyLe, h]
      · subst h
        rcases ih ds with h2 | h2
        · left; simp [keyLe, h2, lt_irrefl]
        · right; simp [keyLe, h2, lt_irrefl]
      · right; simp [keyLe, h]

theorem keyLe_antisymm (a b : Str) (h1 : keyLe a b = true) (h2 : keyLe b a = true) :
    a = b := by
  induction a generalizing b with
  | nil =>
    cases b with
    | nil => rfl
    | cons d ds => simp [keyLe] at h2
  | cons c cs ih =>
    cases b with
    | nil => simp [keyLe] at h1
    | cons d ds =>
      rcases lt_trichotomy c d with h | h | h
      · rw [keyLe] at h2
        simp [h, asymm h] at h2
      · subst h
        rw [keyLe] at h1 h2
        simp [lt_irrefl] at h1 h2
        rw [ih ds h1 h2]
      · rw [keyLe] at h1
        simp [h, asymm h] at h1

theorem keyLe_trans (a b c : Str) (h1 : keyLe a b = true) (h2 : keyLe b c = true) :
    keyLe a c = true := by
  induction a generalizing b c with
  | nil => rfl
  | cons x xs ih =>
    cases b with
    | nil => simp [keyLe] at h1
    | cons y ys =>
      cases c with
      | nil => simp [keyLe] at h2
      | cons z zs =>
        rw [keyLe] at h1 h2 ⊢
        by_cases hxy : x < y
        · by_cases hyz : y < z
          · simp [lt_trans hxy hyz]
          · by_cases hzy : z < y
            · simp [hyz, hzy] at h2
            · have hyzeq : y = z := le_antisymm (not_lt.mp hzy) (not_lt.mp hyz)
              subst hyzeq
              simp [hxy]
        · by_cases hyx : y < x
          · simp [hxy, hyx] at h1
          · have hxyeq : x = y := le_antisymm (not_lt.mp hyx) (not_lt.mp hxy)
            subst hxyeq
            by_cases hyz : x < z
            · simp [hyz]
            · by_cases hzy : z < x
              · simp [hyz, hzy] at h2
              · simp [hyz, hzy] at h1 h2 ⊢
                exact ih ys zs h1 h2

theorem jsort_perm (l : List (Str × JVal)) : (jsort l).Perm l :=
  List.perm_insertionSort _ l

theorem jsort_sorted (l : List (Str × JVal)) :
    List.Sorted (fun a b => keyLe a.1 b.1 = true) (jsort l) := by
  haveI : IsTotal (Str × JVal) (fun a b => keyLe a.1 b.1 = true) :=
    ⟨fun a b => keyLe_total a.1 b.1⟩
  haveI : IsTrans (Str × JVal) (fun a b => keyLe a.1 b.1 = true) :=
    ⟨fun a b c => keyLe_trans a.1 b.1 c.1⟩
  exact List.sorted_insertionSort _ l

theorem jsort_eq_of_perm (l₁ l₂ : List (Str × JVal)) (hp : l₁.Perm l₂)
    (hn : (l₁.map Prod.fst).Nodup) : jsort l₁ = jsort l₂ := by
  have hperm : (jsort l₁).Perm (jsort l₂) :=
    ((jsort_perm l₁).trans hp).trans (jsort_perm l₂).symm
  have hn1 : ((jsort l₁).map Prod.fst).Nodup :=
    (((jsort_perm l₁).map Prod.fst).symm).nodup hn
  have hn2 : ((jsort l₂).map Prod.fst).Nodup :=
    ((hperm.map Prod.fst)).nodup hn1
  have hstrict : ∀ (m : List (Str × JVal)),
      List.Sorted (fun a b => keyLe a.1 b.1 = true) m → (m.map Prod.fst).Nodup →
      List.Pairwise (fun a b : Str × JVal => keyLe a.1 b.1 = true ∧ a.1 ≠ b.1) m := by
    intro m hs hnm
    have hne : List.Pairwise (fun a b : Str × JVal => a.1 ≠ b.1) m :=
      List.pairwise_map.mp hnm
    have hs' : List.Pairwise (fun a b : Str × JVal => keyLe a.1 b.1 = true) m := hs
    exact hs'.and hne
  haveI : IsAntisymm (Str × JVal) (fun a b => keyLe a.1 b.1 = true ∧ a.1 ≠ b.1) :=
    ⟨fun a b h1 h2 => absurd (keyLe_antisymm a.1 b.1 h1.1 h2.1) h1.2⟩
  exact List.eq_of_perm_of_sorted hperm
    (hstrict (jsort l₁) (jsort_sorted l₁) hn1)
    (hstrict (jsort l₂) (jsort_sorted l₂) hn2)

theorem keyAbsent_iff (k : Str) (l : List (Str × JVal)) :
    keyAbsent k l = true ↔ ∀ p ∈ l, p.1 ≠ k := by
  induction l with
  | nil => simp [keyAbsent]
  | cons p t ih =>
    by_cases hp : p.1 = k
    · simp [keyAbsent, hp]
    · simp [keyAbsent, hp, ih]

theorem keysNodup_iff (l : List (Str × JVal)) :
    keysNodup l = true ↔ (l.map Prod.fst).Nodup := by
  induction l with
  | nil => simp [keysNodup]
  | cons p t ih =>
    simp only [keysNodup, Bool.and_eq_true, List.map_cons, List.nodup_cons, ih,
      keyAbsent_iff, List.mem_map]
    constructor
    · rintro ⟨h1, h2⟩
      refine ⟨?_, h2⟩
      rintro ⟨q, hq, hq2⟩
      exact h1 q hq hq2
    · rintro ⟨h1, h2⟩
      exact ⟨fun q hq hq2 => h1 ⟨q, hq, hq2⟩, h2⟩

theorem jlookup_perm (l₁ l₂ : List (Str × JVal)) (hp : l₁.Perm l₂)
    (hn : (l₁.map Prod.fst).Nodup) (k : Str) : jlookup k l₁ = jlookup k l₂ := by
  induction hp with
  | nil => rfl
  | cons x hp ih =>
    simp only [jlookup]
    rw [ih (by simp at hn; exact hn.2)]
  | swap x y l =>
    simp only [jlookup]
    by_cases hx : x.1 = k
    · by_cases hy : y.1 = k
      · exfalso
        simp only [List.map_cons, List.nodup_cons] at hn
        exact hn.1 (by simp [hx, hy])
      · simp [hx, hy]
    · by_cases hy : y.1 = k
      · simp [hx, hy]
      · simp [hx, hy]
  | trans h1 h2 ih1 ih2 =>
    rw [ih1 hn, ih2 ((h1.map Prod.fst).nodup hn)]

theorem jlookup_jsort (l : List (Str × JVal)) (hn : keysNodup l = true) (k : Str) :
    jlookup k (jsort l) = jlookup k l :=
  jlookup_perm (jsort l) l (jsort_perm l)
    (((jsort_perm l).map Prod.fst).symm.nodup ((keysNodup_iff l).mp hn)) k

theorem canonFields_toList : (fs : JFields) →
    canonFields fs = fs.toList.map (fun p => (p.1, canonicalize p.2))
  | .nil => rfl
  | .cons k v tl => by
    rw [canonFields, JFields.toList, List.map_cons, canonFields_toList tl]

theorem canonList_toList : (xs : JList) → (canonList xs).toList = xs.toList.map canonicalize
  | .nil => rfl
  | .cons v tl => by
    rw [canonList, JList.toList, JList.toList, List.map_cons, canonList_toList tl]

theorem JFields.ofList_inj (l₁ l₂ : List (Str × JVal)) (h : JFields.ofList l₁ = JFields.ofList l₂) :
    l₁ = l₂ := by
  rw [← JFields.toList_ofList_eq l₁, ← JFields.toList_ofList_eq l₂, h]

theorem canon_shape_null (b : JVal) (h : canonicalize b = .null) : b = .null := by
  cases b <;> simp [canonicalize] at h <;> rfl

theorem canon_shape_bool (b : JVal) (x : Bool) (h : canonicalize b = .bool x) : b = .bool x := by
  cases b <;> simp [canonicalize] at h
  simp [h]

theorem canon_shape_num (b : JVal) (n : Int) (h : canonicalize b = .num n) : b = .num n := by
  cases b <;> simp [canonicalize] at h
  simp [h]

theorem canon_shape_str (b : JVal) (s : Str) (h : canonicalize b = .str s) : b = .str s := by
  cases b <;> simp [canonicalize] at h
  simp [h]

theorem canon_shape_arr (b : JVal) (ys : JList) (h : canonicalize b = .arr ys) :
    ∃ xs, b = .arr xs ∧ canonList xs = ys := by
  cases b <;> simp [canonicalize] at h
  case arr xs => exact ⟨xs, rfl, h⟩

theorem canon_shape_obj (b : JVal) (gs : JFields) (h : canonicalize b = .obj gs) :
    ∃ fs, b = .obj fs ∧ JFields.ofList (jsort (canonFields fs)) = gs := by
  cases b <;> simp [canonicalize] at h
  case obj fs => exact ⟨fs, rfl, h⟩

theorem canonList_nil_iff (xs : JList) : canonList xs = .nil ↔ xs = .nil := by
  cases xs <;> simp [canonList]

theorem wfKeysFields_forall : (fs : JFields) →
    (wfKeysFields fs = true ↔ ∀ p ∈ fs.toList, wfKeys p.2 = true)
  | .nil => by simp [wfKeysFields, JFields.toList]
  | .cons k v tl => by
    rw [wfKeysFields, JFields.toList]
    simp only [Bool.and_eq_true, List.mem_cons, wfKeysFields_forall tl]
    constructor
    · rintro ⟨h1, h2⟩ p hp
      rcases hp with hp | hp
      · rw [hp]; exact h1
      · exact h2 p hp
    · intro hall
      exact ⟨hall (k, v) (Or.inl rfl), fun p hp => hall p (Or.inr hp)⟩

theorem wfKeysList_forall : (xs : JList) →
    (wfKeysList xs = true ↔ ∀ v ∈ xs.toList, wfKeys v = true)
  | .nil => by simp [wfKeysList, JList.toList]
  | .cons v tl => by
    rw [wfKeysList, JList.toList]
    simp only [Bool.and_eq_true, List.mem_cons, wfKeysList_forall tl]
    constructor
    · rintro ⟨h1, h2⟩ w hw
      rcases hw with hw | hw
      · rw [hw]; exact h1
      · exact h2 w hw
    · intro hall
      exact ⟨hall v (Or.inl rfl), fun w hw => hall w (Or.inr hw)⟩

theorem wf_obj_nodup (fs : JFields) (h : wfKeys (.obj fs) = true) :
    keysNodup fs.toList = true := by
  rw [wfKeys, Bool.and_eq_true] at h
  exact h.1

theorem wf_obj_mem (fs : JFields) (h : wfKeys (.obj fs) = true) (p : Str × JVal)
    (hp : p ∈ fs.toList) : wfKeys p.2 = true := by
  rw [wfKeys, Bool.and_eq_true] at h
  exact (wfKeysFields_forall fs).mp h.2 p hp

theorem wf_arr_mem (xs : JList) (h : wfKeys (.arr xs) = true) (v : JVal)
    (hv : v ∈ xs.toList) : wfKeys v = true := by
  rw [wfKeys] at h
  exact (wfKeysList_forall xs).mp h v hv

theorem jlookup_mem (k : Str) (l : List (Str × JVal)) (v : JVal)
    (h : jlookup k l = some v) : (k, v) ∈ l := by
  induction l with
  | nil => simp [jlookup] at h
  | cons p t ih =>
    simp only [jlookup] at h
    by_cases hp : p.1 = k
    · rw [if_pos hp] at h
      cases h
      rw [← hp]
      exact List.mem_cons_self p t
    · rw [if_neg hp] at h
      exact List.mem_cons_of_mem p (ih h)

theorem jlookup_map (f : JVal → JVal) (k : Str) (l : List (Str × JVal)) :
    jlookup k (l.map (fun p => (p.1, f p.2))) = (jlookup k l).map f := by
  induction l with
  | nil => rfl
  | cons p t ih =>
    simp only [List.map_cons, jlookup]
    by_cases hp : p.1 = k
    · simp [hp]
    · simp [hp, ih]

theorem keysNodup_map_cf (f : JVal → JVal) (l : List (Str × JVal)) :
    keysNodup (l.map (fun p => (p.1, f p.2))) = keysNodup l := by
  have hkeys : (l.map (fun p => (p.1, f p.2))).map Prod.fst = l.map Prod.fst := by
    simp [List.map_map, Function.comp]
  by_cases h : keysNodup l = true
  · have := (keysNodup_iff l).mp h
    rw [h]
    exact (keysNodup_iff _).mpr (by rw [hkeys]; exact this)
  · have h2 : keysNodup l = false := by simpa using h
    rw [h2]
    by_cases h3 : keysNodup (l.map (fun p => (p.1, f p.2))) = true
    · exfalso
      have := (keysNodup_iff _).mp h3
      rw [hkeys] at this
      exact h ((keysNodup_iff l).mpr this)
    · simpa using h3

theorem jlookup_canon_eq (l1 l2 : List (Str × JVal)) (k : Str)
    (h : jsort (l1.map (fun p => (p.1, canonicalize p.2))) =
      jsort (l2.map (fun p => (p.1, canonicalize p.2))))
    (hn1 : keysNodup l1 = true) (hn2 : keysNodup l2 = true) :
    (jlookup k l1).map canonicalize = (jlookup k l2).map canonicalize := by
  rw [← jlookup_map canonicalize k l1, ← jlookup_map canonicalize k l2]
  rw [← jlookup_jsort (l1.map (fun p => (p.1, canonicalize p.2)))
    (by rw [keysNodup_map_cf]; exact hn1) k]
  rw [← jlookup_jsort (l2.map (fun p => (p.1, canonicalize p.2)))
    (by rw [keysNodup_map_cf]; exact hn2) k]
  rw [h]

theorem jeqw_refl (v : JVal) (hw : wfKeys v = true) : JEqW v v := ⟨rfl, hw, hw⟩

theorem truthy_congr (a b : JVal) (hc : canonicalize a = canonicalize b) :
    truthy a = truthy b := by
  cases a with
  | null => rw [canon_shape_null b (by rw [← hc]; rfl)]
  | bool x => rw [canon_shape_bool b x (by rw [← hc]; rfl)]
  | num n => rw [canon_shape_num b n (by rw [← hc]; rfl)]
  | str s => rw [canon_shape_str b s (by rw [← hc]; rfl)]
  | arr xs =>
    obtain ⟨ys, rfl, hys⟩ := canon_shape_arr b (canonList xs) (by rw [← hc]; rfl)
    cases xs <;> cases ys <;> simp_all [canonList, truthy]
  | obj fs =>
    obtain ⟨gs, rfl, hgs⟩ := canon_shape_obj b (JFields.ofList (jsort (canonFields fs)))
      (by rw [← hc]; rfl)
    have heq := JFields.ofList_inj _ _ hgs
    have hlen : gs.toList.length = fs.toList.length := by
      have l1 : (jsort (canonFields fs)).length = fs.toList.length := by
        rw [(jsort_perm _).length_eq, canonFields_toList, List.length_map]
      have l2 : (jsort (canonFields gs)).length = gs.toList.length := by
        rw [(jsort_perm _).length_eq, canonFields_toList, List.length_map]
      rw [← l1, ← l2, heq]
    cases fs <;> cases gs <;> simp_all [truthy, JFields.toList]

theorem hashable_congr (a b : JVal) (hc : canonicalize a = canonicalize b) :
    jvalHashable a = jvalHashable b := by
  cases a with
  | null => rw [canon_shape_null b (by rw [← hc]; rfl)]
  | bool x => rw [canon_shape_bool b x (by rw [← hc]; rfl)]
  | num n => rw [canon_shape_num b n (by rw [← hc]; rfl)]
  | str s => rw [canon_shape_str b s (by rw [← hc]; rfl)]
  | arr xs =>
    obtain ⟨ys, rfl, hys⟩ := canon_shape_arr b (canonList xs) (by rw [← hc]; rfl)
    rfl
  | obj fs =>
    obtain ⟨gs, rfl, hgs⟩ := canon_shape_obj b (JFields.ofList (jsort (canonFields fs)))
      (by rw [← hc]; rfl)
    rfl

theorem jeqw_atom_eq (a b : JVal) (ha : jvalHashable a = true)
    (hc : canonicalize a = canonicalize b) : a = b := by
  cases a with
  | null => rw [canon_shape_null b (by rw [← hc]; rfl)]
  | bool x => rw [canon_shape_bool b x (by rw [← hc]; rfl)]
  | num n => rw [canon_shape_num b n (by rw [← hc]; rfl)]
  | str s => rw [canon_shape_str b s (by rw [← hc]; rfl)]
  | arr xs => simp [jvalHashable] at ha
  | obj fs => simp [jvalHashable] at ha

theorem jeqw_pyGet (a b : JVal) (k : Str) (h : JEqW a b) :
    (pyGet a k = .error "AttributeError" ∧ pyGet b k = .error "AttributeError") ∨
    (∃ oa ob, pyGet a k = .ok oa ∧ pyGet b k = .ok ob ∧ OptRelJ oa ob) := by
  obtain ⟨hc, hwa, hwb⟩ := h
  cases a with
  | null =>
    rw [canon_shape_null b (by rw [← hc]; rfl)]
    left; exact ⟨rfl, rfl⟩
  | bool x =>
    rw [canon_shape_bool b x (by rw [← hc]; rfl)]
    left; exact ⟨rfl, rfl⟩
  | num n =>
    rw [canon_shape_num b n (by rw [← hc]; rfl)]
    left; exact ⟨rfl, rfl⟩
  | str s =>
    rw [canon_shape_str b s (by rw [← hc]; rfl)]
    left; exact ⟨rfl, rfl⟩
  | arr xs =>
    obtain ⟨ys, rfl, hys⟩ := canon_shape_arr b (canonList xs) (by rw [← hc]; rfl)
    left; exact ⟨rfl, rfl⟩
  | obj fs =>
    obtain ⟨gs, rfl, hgs⟩ := canon_shape_obj b (JFields.ofList (jsort (canonFields fs)))
      (by rw [← hc]; rfl)
    have heq : jsort (canonFields gs) = jsort (canonFields fs) := JFields.ofList_inj _ _ hgs
    right
    refine ⟨jlookup k fs.toList, jlookup k gs.toList, rfl, rfl, ?_⟩
    have hmap : (jlookup k fs.toList).map canonicalize =
        (jlookup k gs.toList).map canonicalize := by
      apply jlookup_canon_eq fs.toList gs.toList k
      · rw [← canonFields_toList, ← canonFields_toList, heq]
      · exact wf_obj_nodup fs hwa
      · exact wf_obj_nodup gs hwb
    cases hfa : jlookup k fs.toList with
    | none =>
      rw [hfa] at hmap
      cases hfb : jlookup k gs.toList with
      | none => left; exact ⟨rfl, rfl⟩
      | some w => rw [hfb] at hmap; simp at hmap
    | some v =>
      rw [hfa] at hmap
      cases hfb : jlookup k gs.toList with
      | none => rw [hfb] at hmap; simp at hmap
      | some w =>
        rw [hfb] at hmap
        simp only [Option.map_some'] at hmap
        right
        refine ⟨v, w, rfl, rfl, ?_, ?_, ?_⟩
        · injection hmap
        · exact wf_obj_mem fs hwa (k, v) (jlookup_mem k fs.toList v hfa)
        · exact wf_obj_mem gs hwb (k, w) (jlookup_mem k gs.toList w hfb)

theorem jeqw_pyOr (oa ob : Option JVal) (d d' : JVal) (ho : OptRelJ oa ob)
    (hd : JEqW d d') : JEqW (pyOr oa d) (pyOr ob d') := by
  rcases ho with ⟨h1, h2⟩ | ⟨x, y, h1, h2, hxy⟩
  · rw [h1, h2]; exact hd
  · rw [h1, h2]
    simp only [pyOr]
    rw [truthy_congr x y hxy.1]
    by_cases ht : truthy y = true
    · rw [if_pos ht, if_pos ht]; exact hxy
    · rw [if_neg ht, if_neg ht]; exact hd

theorem optTruthy_congr (oa ob : Option JVal) (ho : OptRelJ oa ob) :
    optTruthy oa = optTruthy ob := by
  rcases ho with ⟨h1, h2⟩ | ⟨x, y, h1, h2, hxy⟩
  · rw [h1, h2]
  · rw [h1, h2]
    simp only [optTruthy]
    exact truthy_congr x y hxy.1

theorem jeqw_pyGetUpper (a b : JVal) (k : Str) (h : JEqW a b) :
    pyGetUpper a k = pyGetUpper b k := by
  rcases jeqw_pyGet a b k h with ⟨h1, h2⟩ | ⟨oa, ob, h1, h2, ho⟩
  · unfold pyGetUpper
    rw [h1, h2]
  · unfold pyGetUpper
    rw [h1, h2]
    simp only [Bind.bind, Except.bind]
    have hw := jeqw_pyOr oa ob (.str []) (.str []) ho (jeqw_refl (.str []) rfl)
    obtain ⟨hwc, _, _⟩ := hw
    cases hwa : pyOr oa (.str []) with
    | null =>
      rw [hwa] at hwc
      rw [canon_shape_null (pyOr ob (.str [])) (by rw [← hwc]; rfl)]
    | bool x =>
      rw [hwa] at hwc
      rw [canon_shape_bool (pyOr ob (.str [])) x (by rw [← hwc]; rfl)]
    | num n =>
      rw [hwa] at hwc
      rw [canon_shape_num (pyOr ob (.str [])) n (by rw [← hwc]; rfl)]
    | str s =>
      rw [hwa] at hwc
      rw [canon_shape_str (pyOr ob (.str [])) s (by rw [← hwc]; rfl)]
    | arr xs =>
      rw [hwa] at hwc
      obtain ⟨ys, hb, _⟩ := canon_shape_arr (pyOr ob (.str [])) (canonList xs) (by rw [← hwc]; rfl)
      rw [hb]
    | obj fs =>
      rw [hwa] at hwc
      obtain ⟨gs, hb, _⟩ := canon_shape_obj (pyOr ob (.str []))
        (JFields.ofList (jsort (canonFields fs))) (by rw [← hwc]; rfl)
      rw [hb]

theorem idx_idxGet_congr (idx idx' : List (JVal × JVal)) (hidx : IdxRel idx idx')
    (ma mb : Option JVal) (h : OptRelJ ma mb) :
    (idxGet idx ma = .error "TypeError" ∧ idxGet idx' mb = .error "TypeError") ∨
    (∃ oa ob, idxGet idx ma = .ok oa ∧ idxGet idx' mb = .ok ob ∧ OptRelJ oa ob) := by
  rcases h with ⟨h1, h2⟩ | ⟨x, y, h1, h2, hxy⟩
  · right
    rw [h1, h2]
    exact ⟨none, none, rfl, rfl, Or.inl ⟨rfl, rfl⟩⟩
  · rw [h1, h2]
    by_cases hh : jvalHashable x = true
    · have hxy2 : x = y := jeqw_atom_eq x y hh hxy.1
      subst hxy2
      simp only [idxGet, hh, if_true]
      right
      exact ⟨idxFind idx x, idxFind idx' x, rfl, rfl, hidx x⟩
    · have hhb : jvalHashable y = false := by
        rw [← hashable_congr x y hxy.1]
        simpa using hh
      have hha : jvalHashable x = false := by simpa using hh
      left
      simp [idxGet, hha, hhb]

theorem forall₂_of_map_canon (l1 l2 : List JVal)
    (hm : l1.map canonicalize = l2.map canonicalize)
    (hw1 : ∀ v ∈ l1, wfKeys v = true) (hw2 : ∀ v ∈ l2, wfKeys v = true) :
    List.Forall₂ JEqW l1 l2 := by
  induction l1 generalizing l2 with
  | nil =>
    cases l2 with
    | nil => exact List.Forall₂.nil
    | cons y t2 => simp at hm
  | cons x t ih =>
    cases l2 with
    | nil => simp at hm
    | cons y t2 =>
      simp only [List.map_cons, List.cons.injEq] at hm
      exact List.Forall₂.cons
        ⟨hm.1, hw1 x (by simp), hw2 y (by simp)⟩
        (ih t2 hm.2 (fun v hv => hw1 v (by simp [hv])) (fun v hv => hw2 v (by simp [hv])))

theorem jeqw_pyIter (a b : JVal) (h : JEqW a b) :
    (pyIter a = .error "TypeError" ∧ pyIter b = .error "TypeError") ∨
    (∃ ls ls', pyIter a = .ok ls ∧ pyIter b = .ok ls' ∧
      (List.Forall₂ JEqW ls ls' ∨
        (∃ k1 t1 k2 t2, ls = .str k1 :: t1 ∧ ls' = .str k2 :: t2))) := by
  obtain ⟨hc, hwa, hwb⟩ := h
  cases a with
  | null =>
    rw [canon_shape_null b (by rw [← hc]; rfl)]
    left; exact ⟨rfl, rfl⟩
  | bool x =>
    rw [canon_shape_bool b x (by rw [← hc]; rfl)]
    left; exact ⟨rfl, rfl⟩
  | num n =>
    rw [canon_shape_num b n (by rw [← hc]; rfl)]
    left; exact ⟨rfl, rfl⟩
  | str s =>
    rw [canon_shape_str b s (by rw [← hc]; rfl)]
    right
    refine ⟨s.map (fun c => .str [c]), s.map (fun c => .str [c]), rfl, rfl, Or.inl ?_⟩
    apply List.forall₂_same.mpr
    intro x hx
    obtain ⟨c, _, rfl⟩ := List.mem_map.mp hx
    exact jeqw_refl (.str [c]) rfl
  | arr xs =>
    obtain ⟨ys, rfl, hys⟩ := canon_shape_arr b (canonList xs) (by rw [← hc]; rfl)
    right
    refine ⟨xs.toList, ys.toList, rfl, rfl, Or.inl ?_⟩
    have hmap : xs.toList.map canonicalize = ys.toList.map canonicalize := by
      rw [← canonList_toList, ← canonList_toList, hys]
    exact forall₂_of_map_canon xs.toList ys.toList hmap
      (fun v hv => wf_arr_mem xs hwa v hv) (fun v hv => wf_arr_mem ys hwb v hv)
  | obj fs =>
    obtain ⟨gs, rfl, hgs⟩ := canon_shape_obj b (JFields.ofList (jsort (canonFields fs)))
      (by rw [← hc]; rfl)
    have heq : jsort (canonFields gs) = jsort (canonFields fs) := JFields.ofList_inj _ _ hgs
    cases fs with
    | nil =>
      have hz : jsort (canonFields gs) = [] := heq
      have hp := jsort_perm (canonFields gs)
      rw [hz] at hp
      have hnil : canonFields gs = [] := hp.symm.eq_nil
      have hgsnil : gs = .nil := by
        cases gs with
        | nil => rfl
        | cons k v tl => rw [canonFields] at hnil; simp at hnil
      subst hgsnil
      right
      exact ⟨[], [], rfl, rfl, Or.inl List.Forall₂.nil⟩
    | cons k v tl =>
      cases gs with
      | nil =>
        exfalso
        have hz : jsort (canonFields (JFields.cons k v tl)) = [] := heq.symm
        have hp := jsort_perm (canonFields (JFields.cons k v tl))
        rw [hz] at hp
        have hnil := hp.symm.eq_nil
        rw [canonFields] at hnil
        simp at hnil
      | cons k2 v2 tl2 =>
        right
        refine ⟨_, _, rfl, rfl, Or.inr ⟨k, List.map (fun p => JVal.str p.1) tl.toList,
          k2, List.map (fun p => JVal.str p.1) tl2.toList, ?_, ?_⟩⟩
        · simp [pyIter, JFields.toList]
        · simp [pyIter, JFields.toList]

theorem getD_canon_congr (oa ob : Option JVal) (h : OptRelJ oa ob) :
    canonicalize (oa.getD .null) = canonicalize (ob.getD .null) := by
  rcases h with ⟨h1, h2⟩ | ⟨x, y, h1, h2, hxy⟩
  · rw [h1, h2]
  · rw [h1, h2]
    exact hxy.1

theorem hash_parts_congr (idx idx' : List (JVal × JVal)) (hidx : IdxRel idx idx')
    (ls ls' : List JVal) (hrel : List.Forall₂ JEqW ls ls') :
    (∃ m, hash_parts idx ls = .error m ∧ hash_parts idx' ls' = .error m) ∨
    (∃ ps ps', hash_parts idx ls = .ok ps ∧ hash_parts idx' ls' = .ok ps' ∧
      List.Forall₂ (fun u w => canonicalize u = canonicalize w) ps ps') := by
  induction hrel with
  | nil => right; exact ⟨[], [], rfl, rfl, List.Forall₂.nil⟩
  | @cons x y l1 l2 hxy htail ih =>
    have hst := jeqw_pyGetUpper x y (S "type") hxy
    cases hstx : pyGetUpper x (S "type") with
    | error m =>
      have hsty : pyGetUpper y (S "type") = .error m := by rw [← hst, hstx]
      left
      refine ⟨m, ?_, ?_⟩ <;>
        simp only [hash_parts, hstx, hsty, Bind.bind, Except.bind]
    | ok stype =>
      have hsty : pyGetUpper y (S "type") = .ok stype := by rw [← hst, hstx]
      simp only [hash_parts, hstx, hsty, Bind.bind, Except.bind]
      by_cases hmod : stype = S "MODULE"
      · rw [if_pos hmod, if_pos hmod]
        rcases jeqw_pyGet x y (S "moduleId") hxy with ⟨e1, e2⟩ | ⟨ma, mb, hma, hmb, hmo⟩
        · left
          refine ⟨"AttributeError", ?_, ?_⟩ <;> simp only [e1, e2, Except.bind]
        · simp only [hma, hmb, Except.bind]
          rcases idx_idxGet_congr idx idx' hidx ma mb hmo with ⟨f1, f2⟩ |
            ⟨oa, ob, hoa, hob, hoo⟩
          · left
            refine ⟨"TypeError", ?_, ?_⟩ <;> simp only [f1, f2, Except.bind]
          · simp only [hoa, hob, Except.bind]
            rcases hoo with ⟨hn1, hn2⟩ | ⟨mv, mw, hv1, hv2, hmvw⟩
            · left
              rw [hn1, hn2]
              exact ⟨"AttributeError", rfl, rfl⟩
            · rw [hv1, hv2]
              rcases jeqw_pyGet mv mw (S "raw") hmvw with ⟨r1, r2⟩ | ⟨ra, rb, hra, hrb, hro⟩
              · left
                refine ⟨"AttributeError", ?_, ?_⟩ <;> simp only [r1, r2, Except.bind]
              · simp only [hra, hrb, Except.bind]
                rcases ih with ⟨m, i1, i2⟩ | ⟨ps, ps', p1, p2, prel⟩
                · left
                  refine ⟨m, ?_, ?_⟩ <;> simp only [i1, i2, Except.bind]
                · right
                  refine ⟨ra.getD .null :: ps, rb.getD .null :: ps', ?_, ?_, ?_⟩
                  · simp only [p1, Except.bind]
                  · simp only [p2, Except.bind]
                  · exact List.Forall₂.cons (getD_canon_congr ra rb hro) prel
      · rw [if_neg hmod, if_neg hmod]
        exact ih

theorem forall₂_canon_map_eq (l l' : List JVal)
    (h : List.Forall₂ (fun u w => canonicalize u = canonicalize w) l l') :
    l.map canonicalize = l'.map canonicalize := by
  induction h with
  | nil => rfl
  | cons hx ht ih => simp_all

theorem JList.toList_inj (a b : JList) (h : a.toList = b.toList) : a = b := by
  rw [← JList.ofList_toList a, ← JList.ofList_toList b, h]

theorem canon_parts_obj_eq (t t' : JVal) (ps ps' : List JVal)
    (ht : canonicalize t = canonicalize t')
    (hps : List.Forall₂ (fun u w => canonicalize u = canonicalize w) ps ps') :
    canonicalize (jobj [(S "parts", jarr (t :: ps))]) =
      canonicalize (jobj [(S "parts", jarr (t' :: ps'))]) := by
  have harr : canonicalize (jarr (t :: ps)) = canonicalize (jarr (t' :: ps')) := by
    show JVal.arr (canonList (JList.ofList (t :: ps))) =
      JVal.arr (canonList (JList.ofList (t' :: ps')))
    congr 1
    apply JList.toList_inj
    rw [canonList_toList, canonList_toList, JList.toList_ofList, JList.toList_ofList]
    simp only [List.map_cons]
    rw [ht, forall₂_canon_map_eq ps ps' hps]
  show JVal.obj (JFields.ofList (jsort (canonFields
      (JFields.ofList [(S "parts", jarr (t :: ps))])))) =
    JVal.obj (JFields.ofList (jsort (canonFields
      (JFields.ofList [(S "parts", jarr (t' :: ps'))]))))
  have h1 : ∀ v : JVal, canonFields (JFields.ofList [(S "parts", v)]) =
      [(S "parts", canonicalize v)] := fun v => rfl
  rw [h1, h1]
  have h2 : ∀ v : JVal, jsort [(S "parts", v)] = [(S "parts", v)] := fun v => rfl
  rw [h2, h2, harr]

theorem hash_input_congr (t t' : JVal) (idx idx' : List (JVal × JVal))
    (ht : JEqW t t') (hidx : IdxRel idx idx') :
    (∃ m, hash_input t idx = .error m ∧ hash_input t' idx' = .error m) ∨
    (∃ v v', hash_input t idx = .ok v ∧ hash_input t' idx' = .ok v' ∧
      canonicalize v = canonicalize v') := by
  unfold hash_input
  rcases jeqw_pyGet t t' (S "steps") ht with ⟨e1, e2⟩ | ⟨sa, sb, hsa, hsb, hso⟩
  · left
    refine ⟨"AttributeError", ?_, ?_⟩ <;> simp only [e1, e2, Bind.bind, Except.bind]
  · rw [hsa, hsb]
    simp only [Bind.bind, Except.bind]
    have hor := jeqw_pyOr sa sb (jarr []) (jarr []) hso (jeqw_refl (jarr []) rfl)
    rcases jeqw_pyIter (pyOr sa (jarr [])) (pyOr sb (jarr [])) hor with ⟨i1, i2⟩ |
      ⟨ls, ls', hl1, hl2, hlrel⟩
    · left
      refine ⟨"TypeError", ?_, ?_⟩ <;> simp only [i1, i2, Except.bind]
    · rw [hl1, hl2]
      simp only [Except.bind]
      rcases hlrel with hfor | ⟨k1, t1, k2, t2, hk1, hk2⟩
      · rcases hash_parts_congr idx idx' hidx ls ls' hfor with ⟨m, p1, p2⟩ |
          ⟨ps, ps', p1, p2, prel⟩
        · left
          refine ⟨m, ?_, ?_⟩ <;> simp only [p1, p2, Except.bind]
        · right
          refine ⟨jobj [(S "parts", jarr (t :: ps))], jobj [(S "parts", jarr (t' :: ps'))],
            ?_, ?_, ?_⟩
          · simp only [p1, Except.bind]
          · simp only [p2, Except.bind]
          · exact canon_parts_obj_eq t t' ps ps' ht.1 prel
      · subst hk1
        subst hk2
        left
        refine ⟨"AttributeError", ?_, ?_⟩ <;> rfl

/-- Key-order congruence of the fingerprinter: canonically equal inputs
produce identical results (same digest or the same exception). -/
theorem content_hash_congr (h : JVal → Str) (t t' : JVal) (idx idx' : List (JVal × JVal))
    (ht : JEqW t t') (hidx : IdxRel idx idx') :
    content_hash_from_docs h t idx = content_hash_from_docs h t' idx' := by
  unfold content_hash_from_docs
  rcases hash_input_congr t t' idx idx' ht hidx with ⟨m, e1, e2⟩ | ⟨v, v', h1, h2, hvv⟩
  · rw [e1, e2]
  · rw [h1, h2]
    simp only [Bind.bind, Except.bind, json_sha256]
    rw [hvv]

theorem wfKeys_jobj_iff (l : List (Str × JVal)) :
    wfKeys (jobj l) = true ↔ (keysNodup l = true ∧ ∀ p ∈ l, wfKeys p.2 = true) := by
  show wfKeys (.obj (JFields.ofList l)) = true ↔ _
  rw [wfKeys, Bool.and_eq_true, JFields.toList_ofList_eq, wfKeysFields_forall,
    JFields.toList_ofList_eq]

theorem wfKeys_jarr_iff (l : List JVal) :
    wfKeys (jarr l) = true ↔ ∀ v ∈ l, wfKeys v = true := by
  show wfKeys (.arr (JList.ofList l)) = true ↔ _
  rw [wfKeys, wfKeysList_forall, JList.toList_ofList]

theorem canon_jobj (l : List (Str × JVal)) :
    canonicalize (jobj l) =
      .obj (JFields.ofList (jsort (l.map (fun p => (p.1, canonicalize p.2))))) := by
  show JVal.obj (JFields.ofList (jsort (canonFields (JFields.ofList l)))) = _
  rw [canonFields_toList, JFields.toList_ofList_eq]

theorem perm_jeqw_obj (fs gs : List (Str × JVal)) (hp : fs.Perm gs)
    (hw : wfKeys (jobj fs) = true) : JEqW (jobj fs) (jobj gs) := by
  obtain ⟨hn, hv⟩ := (wfKeys_jobj_iff fs).mp hw
  refine ⟨?_, hw, ?_⟩
  · rw [canon_jobj, canon_jobj]
    have := jsort_eq_of_perm (fs.map (fun p => (p.1, canonicalize p.2)))
      (gs.map (fun p => (p.1, canonicalize p.2))) (hp.map _)
      (by
        have : (fs.map (fun p => (p.1, canonicalize p.2))).map Prod.fst = fs.map Prod.fst := by
          simp [List.map_map, Function.comp]
        rw [this]
        exact (keysNodup_iff fs).mp hn)
    rw [this]
  · refine (wfKeys_jobj_iff gs).mpr ⟨?_, ?_⟩
    · exact (keysNodup_iff gs).mpr ((hp.map Prod.fst).nodup ((keysNodup_iff fs).mp hn))
    · intro p hp2
      exact hv p (hp.symm.subset hp2)

theorem forall₂_jeqw_wf_left (xs ys : List JVal) (h : List.Forall₂ JEqW xs ys) :
    ∀ v ∈ xs, wfKeys v = true := by
  induction h with
  | nil => simp
  | cons hx ht ih =>
    intro v hv
    rcases List.mem_cons.mp hv with hv | hv
    · rw [hv]; exact hx.2.1
    · exact ih v hv

theorem forall₂_jeqw_wf_right (xs ys : List JVal) (h : List.Forall₂ JEqW xs ys) :
    ∀ v ∈ ys, wfKeys v = true := by
  induction h with
  | nil => simp
  | cons hx ht ih =>
    intro v hv
    rcases List.mem_cons.mp hv with hv | hv
    · rw [hv]; exact hx.2.2
    · exact ih v hv

theorem forall₂_jeqw_arr (xs ys : List JVal) (h : List.Forall₂ JEqW xs ys) :
    JEqW (jarr xs) (jarr ys) := by
  refine ⟨?_, ?_, ?_⟩
  · show JVal.arr (canonList (JList.ofList xs)) = JVal.arr (canonList (JList.ofList ys))
    congr 1
    apply JList.toList_inj
    rw [canonList_toList, canonList_toList, JList.toList_ofList, JList.toList_ofList]
    refine forall₂_canon_map_eq xs ys (h.imp ?_)
    intro a b hab
    exact hab.1
  · exact (wfKeys_jarr_iff xs).mpr (forall₂_jeqw_wf_left xs ys h)
  · exact (wfKeys_jarr_iff ys).mpr (forall₂_jeqw_wf_right xs ys h)

theorem forall₂_fields_map_eq (fs gs : List (Str × JVal))
    (h : List.Forall₂ (fun p q : Str × JVal => p.1 = q.1 ∧ JEqW p.2 q.2) fs gs) :
    fs.map (fun p => (p.1, canonicalize p.2)) = gs.map (fun p => (p.1, canonicalize p.2)) := by
  induction h with
  | nil => rfl
  | cons hx ht ih => simp_all [hx.1, hx.2.1]

theorem forall₂_fields_keys_eq (fs gs : List (Str × JVal))
    (h : List.Forall₂ (fun p q : Str × JVal => p.1 = q.1 ∧ JEqW p.2 q.2) fs gs) :
    fs.map Prod.fst = gs.map Prod.fst := by
  induction h with
  | nil => rfl
  | cons hx ht ih => simp_all [hx.1]

theorem forall₂_fields_wf_left (fs gs : List (Str × JVal))
    (h : List.Forall₂ (fun p q : Str × JVal => p.1 = q.1 ∧ JEqW p.2 q.2) fs gs) :
    ∀ p ∈ fs, wfKeys p.2 = true := by
  induction h with
  | nil => simp
  | cons hx ht ih =>
    intro p hp
    rcases List.mem_cons.mp hp with hpe | hpe
    · rw [hpe]; exact hx.2.2.1
    · exact ih p hpe

theorem forall₂_fields_wf_right (fs gs : List (Str × JVal))
    (h : List.Forall₂ (fun p q : Str × JVal => p.1 = q.1 ∧ JEqW p.2 q.2) fs gs) :
    ∀ p ∈ gs, wfKeys p.2 = true := by
  induction h with
  | nil => simp
  | cons hx ht ih =>
    intro p hp
    rcases List.mem_cons.mp hp with hpe | hpe
    · rw [hpe]; exact hx.2.2.2
    · exact ih p hpe

theorem forall₂_jeqw_obj (fs gs : List (Str × JVal))
    (h : List.Forall₂ (fun p q : Str × JVal => p.1 = q.1 ∧ JEqW p.2 q.2) fs gs)
    (hn : keysNodup fs = true) : JEqW (jobj fs) (jobj gs) := by
  have hng : keysNodup gs = true := by
    rw [keysNodup_iff, ← forall₂_fields_keys_eq fs gs h]
    exact (keysNodup_iff fs).mp hn
  refine ⟨?_, ?_, ?_⟩
  · rw [canon_jobj, canon_jobj, forall₂_fields_map_eq fs gs h]
  · exact (wfKeys_jobj_iff fs).mpr ⟨hn, forall₂_fields_wf_left fs gs h⟩
  · exact (wfKeys_jobj_iff gs).mpr ⟨hng, forall₂_fields_wf_right fs gs h⟩

theorem atomEq_eq (a b : JVal) (h : atomEq a b = true) : a = b := by
  cases a <;> cases b <;> simp_all [atomEq]

theorem atomEq_refl (a : JVal) (h : jvalHashable a = true) : atomEq a a = true := by
  cases a <;> simp_all [atomEq, jvalHashable]

theorem idxFind_mem (idx : List (JVal × JVal)) (k v : JVal)
    (h : idxFind idx k = some v) : ∃ p ∈ idx, p.2 = v := by
  induction idx with
  | nil => simp [idxFind] at h
  | cons p t ih =>
    simp only [idxFind] at h
    by_cases hp : atomEq p.1 k = true
    · rw [if_pos hp] at h
      cases h
      exact ⟨p, by simp, rfl⟩
    · rw [if_neg hp] at h
      obtain ⟨q, hq, hq2⟩ := ih h
      exact ⟨q, by simp [hq], hq2⟩

theorem idxKeyAbsent_iff (k : JVal) (l : List (JVal × JVal)) :
    idxKeyAbsent k l = true ↔ ∀ p ∈ l, atomEq p.1 k = false := by
  induction l with
  | nil => simp [idxKeyAbsent]
  | cons p t ih =>
    by_cases hp : atomEq p.1 k = true
    · simp [idxKeyAbsent, hp]
    · simp only [idxKeyAbsent, Bool.and_eq_true, Bool.not_eq_true', List.mem_cons]
      constructor
      · rintro ⟨h1, h2⟩ q hq
        rcases hq with hq | hq
        · rw [hq]; exact h1
        · exact (ih.mp h2) q hq
      · intro hall
        exact ⟨hall p (Or.inl rfl), ih.mpr (fun q hq => hall q (Or.inr hq))⟩

theorem beq_comm_of_lawful {α : Type} [BEq α] [LawfulBEq α] (a b : α) :
    (a == b) = (b == a) := by
  by_cases h : a = b
  · subst h; rfl
  · rw [beq_false_of_ne h, beq_false_of_ne (Ne.symm h)]

theorem atomEq_symm (a b : JVal) : atomEq a b = atomEq b a := by
  cases a <;> cases b <;> simp only [atomEq] <;>
    first
      | rfl
      | exact beq_comm_of_lawful _ _

theorem idxKeysNodup_perm (l1 l2 : List (JVal × JVal)) (hp : l1.Perm l2)
    (hn : idxKeysNodup l1 = true) : idxKeysNodup l2 = true := by
  induction hp with
  | nil => exact hn
  | cons x hpp ih =>
    simp only [idxKeysNodup, Bool.and_eq_true] at hn ⊢
    obtain ⟨h1, h2⟩ := hn
    refine ⟨?_, ih h2⟩
    rw [idxKeyAbsent_iff] at h1 ⊢
    exact fun p hp2 => h1 p (hpp.symm.subset hp2)
  | swap x y l =>
    simp only [idxKeysNodup, idxKeyAbsent, Bool.and_eq_true, Bool.not_eq_true'] at hn ⊢
    obtain ⟨⟨hxy, hxl⟩, hyl, hl⟩ := hn
    refine ⟨⟨?_, hyl⟩, hxl, hl⟩
    rw [atomEq_symm]
    exact hxy
  | trans g1 g2 ihg1 ihg2 => exact ihg2 (ihg1 hn)

theorem idxFind_perm (idx idx' : List (JVal × JVal)) (hp : idx.Perm idx')
    (hn : idxKeysNodup idx = true) (k : JVal) : idxFind idx k = idxFind idx' k := by
  induction hp with
  | nil => rfl
  | cons x hpp ih =>
    simp only [idxKeysNodup, Bool.and_eq_true] at hn
    simp only [idxFind]
    rw [ih hn.2]
  | swap x y l =>
    simp only [idxKeysNodup, Bool.and_eq_true, idxKeyAbsent] at hn
    simp only [idxFind]
    by_cases hx : atomEq x.1 k = true
    · by_cases hy : atomEq y.1 k = true
      · exfalso
        have hxk := atomEq_eq x.1 k hx
        have hyk := atomEq_eq y.1 k hy
        have : atomEq x.1 y.1 = true := by
          rw [hxk, hyk]
          have hh : jvalHashable k = true := by
            cases k <;> simp_all [atomEq, jvalHashable]
          exact atomEq_refl k hh
        rw [this] at hn
        simp at hn
      · simp [hx, hy]
    · by_cases hy : atomEq y.1 k = true
      · simp [hx, hy]
      · simp [hx, hy]
  | trans h1 h2 ih1 ih2 =>
    rw [ih1 hn]
    exact ih2 (idxKeysNodup_perm _ _ h1 hn)

theorem perm_idxrel (idx idx' : List (JVal × JVal)) (hp : idx.Perm idx')
    (hn : idxKeysNodup idx = true) (hw : ∀ p ∈ idx, wfKeys p.2 = true) : IdxRel idx idx' := by
  intro k
  rw [← idxFind_perm idx idx' hp hn k]
  cases hf : idxFind idx k with
  | none => left; exact ⟨rfl, rfl⟩
  | some v =>
    right
    obtain ⟨p, hpmem, hpv⟩ := idxFind_mem idx k v hf
    exact ⟨v, v, rfl, rfl, jeqw_refl v (hpv ▸ hw p hpmem)⟩

theorem jlookup_nodup_get (l : List (Str × JVal)) (i : Nat) (hi : i < l.length)
    (hn : keysNodup l = true) : jlookup (l.get ⟨i, hi⟩).1 l = some (l.get ⟨i, hi⟩).2 := by
  induction l generalizing i with
  | nil => simp at hi
  | cons p t ih =>
    simp only [keysNodup, Bool.and_eq_true] at hn
    cases i with
    | zero => simp [jlookup]
    | succ j =>
      have hj : j < t.length := by simpa using hi
      have hkey : (t.get ⟨j, hj⟩).1 ≠ p.1 := by
        have := (keyAbsent_iff p.1 t).mp hn.1 (t.get ⟨j, hj⟩) (t.get_mem j hj)
        exact this
      simp only [List.get_cons_succ, jlookup]
      rw [if_neg (fun hcontra => hkey hcontra.symm)]
      exact ih j hj hn.2

theorem set_keys_eq (l : List (Str × JVal)) (i : Nat) (hi : i < l.length) (v' : JVal) :
    (l.set i ((l.get ⟨i, hi⟩).1, v')).map Prod.fst = l.map Prod.fst := by
  induction l generalizing i with
  | nil => simp at hi
  | cons p t ih =>
    cases i with
    | zero => simp
    | succ j =>
      have hj : j < t.length := by simpa using hi
      simp only [List.get_cons_succ, List.set_cons_succ, List.map_cons]
      rw [ih j hj]

theorem jlookup_set_key (l : List (Str × JVal)) (i : Nat) (hi : i < l.length) (v' : JVal)
    (hn : keysNodup l = true) :
    jlookup (l.get ⟨i, hi⟩).1 (l.set i ((l.get ⟨i, hi⟩).1, v')) = some v' := by
  induction l generalizing i with
  | nil => simp at hi
  | cons p t ih =>
    simp only [keysNodup, Bool.and_eq_true] at hn
    cases i with
    | zero => simp [jlookup]
    | succ j =>
      have hj : j < t.length := by simpa using hi
      have hkey : (t.get ⟨j, hj⟩).1 ≠ p.1 := by
        exact (keyAbsent_iff p.1 t).mp hn.1 (t.get ⟨j, hj⟩) (t.get_mem j hj)
      simp only [List.get_cons_succ, List.set_cons_succ, jlookup]
      rw [if_neg (fun hcontra => hkey hcontra.symm)]
      exact ih j hj hn.2

theorem single_field_canon_ne (l : List (Str × JVal)) (i : Nat) (hi : i < l.length)
    (v' : JVal) (hn : keysNodup l = true)
    (hv : canonicalize (l.get ⟨i, hi⟩).2 ≠ canonicalize v') :
    canonicalize (jobj l) ≠ canonicalize (jobj (l.set i ((l.get ⟨i, hi⟩).1, v'))) := by
  intro hcontra
  rw [canon_jobj, canon_jobj] at hcontra
  have hs : jsort (l.map (fun p => (p.1, canonicalize p.2))) =
      jsort ((l.set i ((l.get ⟨i, hi⟩).1, v')).map (fun p => (p.1, canonicalize p.2))) := by
    injection hcontra with hfs
    exact JFields.ofList_inj _ _ hfs
  have hnset : keysNodup (l.set i ((l.get ⟨i, hi⟩).1, v')) = true := by
    rw [keysNodup_iff, set_keys_eq l i hi v']
    exact (keysNodup_iff l).mp hn
  have hn1 : keysNodup (l.map (fun p => (p.1, canonicalize p.2))) = true := by
    rw [keysNodup_map_cf]; exact hn
  have hn2 : keysNodup ((l.set i ((l.get ⟨i, hi⟩).1, v')).map
      (fun p => (p.1, canonicalize p.2))) = true := by
    rw [keysNodup_map_cf]; exact hnset
  have h1 : jlookup (l.get ⟨i, hi⟩).1 (l.map (fun p => (p.1, canonicalize p.2))) =
      some (canonicalize (l.get ⟨i, hi⟩).2) := by
    rw [jlookup_map, jlookup_nodup_get l i hi hn]
    rfl
  have h2 : jlookup (l.get ⟨i, hi⟩).1 ((l.set i ((l.get ⟨i, hi⟩).1, v')).map
      (fun p => (p.1, canonicalize p.2))) = some (canonicalize v') := by
    rw [jlookup_map, jlookup_set_key l i hi v' hn]
    rfl
  have hchain : some (canonicalize (l.get ⟨i, hi⟩).2) = some (canonicalize v') := by
    rw [← h1, ← h2]
    rw [← jlookup_jsort _ hn1, ← jlookup_jsort _ hn2, hs]
  exact hv (Option.some_inj.mp hchain)

theorem hash_parts_update (idx idx' : List (JVal × JVal)) (M : Str) (e e' r r' : JVal)
    (hne : ∀ k : JVal, k ≠ .str M → idxFind idx k = idxFind idx' k)
    (hM : idxFind idx (.str M) = some e) (hM' : idxFind idx' (.str M) = some e')
    (hre : pyGet e (S "raw") = .ok (some r)) (hre' : pyGet e' (S "raw") = .ok (some r')) :
    ∀ (ls ps : List JVal), hash_parts idx ls = .ok ps →
      ∃ ps', hash_parts idx' ls = .ok ps' ∧
        List.Forall₂ (fun a b => a = b ∨ (a = r ∧ b = r')) ps ps' ∧
        ((∃ s ∈ ls, pyGetUpper s (S "type") = .ok (S "MODULE") ∧
            pyGet s (S "moduleId") = .ok (some (.str M))) →
          (r, r') ∈ ps.zip ps') := by
  intro ls
  induction ls with
  | nil =>
    intro ps hok
    simp only [hash_parts] at hok
    cases hok
    refine ⟨[], rfl, List.Forall₂.nil, ?_⟩
    rintro ⟨s, hs, _⟩
    simp at hs
  | cons s rest ih =>
    intro ps hok
    cases hst : pyGetUpper s (S "type") with
    | error m =>
      simp only [hash_parts, hst, Bind.bind, Except.bind] at hok
      cases hok
    | ok stype =>
      by_cases hmod : stype = S "MODULE"
      · subst hmod
        simp only [hash_parts, hst, Bind.bind, Except.bind, if_pos rfl] at hok ⊢
        cases hmid : pyGet s (S "moduleId") with
        | error m => rw [hmid] at hok; simp at hok
        | ok mid =>
          rw [hmid] at hok
          simp only [Except.bind] at hok ⊢
          cases mid with
          | none => simp [idxGet] at hok
          | some mk =>
            by_cases hh : jvalHashable mk = true
            · simp only [idxGet, hh, if_true, Except.bind] at hok ⊢
              by_cases hkM : mk = JVal.str M
              · subst hkM
                rw [hM] at hok
                rw [hM']
                simp only [Except.bind] at hok ⊢
                rw [hre] at hok
                rw [hre']
                simp only [Except.bind] at hok ⊢
                cases htl : hash_parts idx rest with
                | error m => rw [htl] at hok; simp at hok
                | ok tl =>
                  rw [htl] at hok
                  simp only [Except.bind, Except.ok.injEq] at hok
                  obtain ⟨ps', hps', hrel, hmem⟩ := ih tl htl
                  rw [hps']
                  refine ⟨r' :: ps', rfl, ?_, ?_⟩
                  · rw [← hok]
                    exact List.Forall₂.cons (Or.inr ⟨rfl, rfl⟩) hrel
                  · intro _
                    rw [← hok]
                    simp only [Option.getD_some, List.zip_cons_cons]
                    exact List.mem_cons_self _ _
              · rw [← hne mk hkM]
                cases hfind : idxFind idx mk with
                | none => rw [hfind] at hok; simp at hok
                | some mv =>
                  rw [hfind] at hok
                  simp only [Except.bind] at hok ⊢
                  cases hraw : pyGet mv (S "raw") with
                  | error m => rw [hraw] at hok; simp at hok
                  | ok r0 =>
                    rw [hraw] at hok
                    simp only [Except.bind] at hok ⊢
                    cases htl : hash_parts idx rest with
                    | error m => rw [htl] at hok; simp at hok
                    | ok tl =>
                      rw [htl] at hok
                      simp only [Except.bind, Except.ok.injEq] at hok
                      obtain ⟨ps', hps', hrel, hmem⟩ := ih tl htl
                      rw [hps']
                      refine ⟨r0.getD .null :: ps', rfl, ?_, ?_⟩
                      · rw [← hok]
                        exact List.Forall₂.cons (Or.inl rfl) hrel
                      · rintro ⟨s2, hs2, hty2, hmid2⟩
                        rcases List.mem_cons.mp hs2 with hs2 | hs2
                        · exfalso
                          rw [hs2] at hmid2
                          rw [hmid] at hmid2
                          simp only [Except.ok.injEq, Option.some.injEq] at hmid2
                          exact hkM hmid2
                        · rw [← hok]
                          simp only [List.zip_cons_cons]
                          exact List.mem_cons_of_mem _ (hmem ⟨s2, hs2, hty2, hmid2⟩)
            · have hh2 : jvalHashable mk = false := by simpa using hh
              simp only [idxGet, hh2, Bool.false_eq_true, if_false, Except.bind] at hok
              simp at hok
      · simp only [hash_parts, hst, Bind.bind, Except.bind, if_neg hmod] at hok ⊢
        obtain ⟨ps', hps', hrel, hmem⟩ := ih ps hok
        refine ⟨ps', hps', hrel, ?_⟩
        rintro ⟨s2, hs2, hty2, hmid2⟩
        rcases List.mem_cons.mp hs2 with hs2 | hs2
        · exfalso
          rw [hs2] at hty2
          rw [hst] at hty2
          simp only [Except.ok.injEq] at hty2
          exact hmod hty2
        · exact hmem ⟨s2, hs2, hty2, hmid2⟩

theorem idxFind_assocPut_self (idx : List (JVal × JVal)) (k v : JVal)
    (hk : jvalHashable k = true) : idxFind (assocPut idx k v) k = some v := by
  induction idx with
  | nil =>
    show idxFind [(k, v)] k = some v
    simp [idxFind, atomEq_refl k hk]
  | cons p t ih =>
    show idxFind (if atomEq p.1 k then (k, v) :: t else p :: assocPut t k v) k = some v
    by_cases hpk : atomEq p.1 k = true
    · rw [if_pos hpk]
      simp [idxFind, atomEq_refl k hk]
    · rw [if_neg hpk]
      simp only [idxFind]
      rw [if_neg hpk]
      exact ih

theorem idxFind_assocPut_other (idx : List (JVal × JVal)) (k v k2 : JVal) (hk : k2 ≠ k) :
    idxFind (assocPut idx k v) k2 = idxFind idx k2 := by
  have hf : atomEq k k2 = false := by
    cases hE : atomEq k k2
    · rfl
    · exact absurd (atomEq_eq k k2 hE).symm hk
  induction idx with
  | nil =>
    show idxFind [(k, v)] k2 = none
    simp [idxFind, hf]
  | cons p t ih =>
    show idxFind (if atomEq p.1 k then (k, v) :: t else p :: assocPut t k v) k2 =
      idxFind (p :: t) k2
    by_cases hpk : atomEq p.1 k = true
    · rw [if_pos hpk]
      have hp1 : p.1 = k := atomEq_eq p.1 k hpk
      simp only [idxFind, hf, hp1]
      simp
    · rw [if_neg hpk]
      simp only [idxFind]
      by_cases hpk2 : atomEq p.1 k2 = true
      · rw [if_pos hpk2, if_pos hpk2]
      · rw [if_neg hpk2, if_neg hpk2]
        exact ih

theorem map_canon_ne_of_zip (r r' : JVal)
    (hrr : canonicalize r ≠ canonicalize r') :
    ∀ (ps ps' : List JVal), (r, r') ∈ ps.zip ps' →
      ps.map canonicalize ≠ ps'.map canonicalize := by
  intro ps
  induction ps with
  | nil =>
    intro ps' hzip
    simp at hzip
  | cons a as ih =>
    intro ps' hzip
    cases ps' with
    | nil => simp at hzip
    | cons b bs =>
      simp only [List.zip_cons_cons] at hzip
      intro hcontra
      simp only [List.map_cons, List.cons.injEq] at hcontra
      rcases List.mem_cons.mp hzip with heq | hmem
      · injection heq with h1 h2
        subst h1
        subst h2
        exact hrr hcontra.1
      · exact ih bs hmem hcontra.2

theorem canon_parts_obj_ne (t : JVal) (ps ps' : List JVal)
    (hne : ps.map canonicalize ≠ ps'.map canonicalize) :
    canonicalize (jobj [(S "parts", jarr (t :: ps))]) ≠
      canonicalize (jobj [(S "parts", jarr (t :: ps'))]) := by
  intro hcontra
  apply hne
  have hshape : ∀ xs : List JVal, canonicalize (jobj [(S "parts", jarr (t :: xs))]) =
      JVal.obj (JFields.ofList (jsort [(S "parts",
        JVal.arr (canonList (JList.ofList (t :: xs))))])) := fun xs => rfl
  rw [hshape, hshape] at hcontra
  have hsort : ∀ v : JVal, jsort [(S "parts", v)] = [(S "parts", v)] := fun v => rfl
  rw [hsort, hsort] at hcontra
  injection hcontra with hfs
  have hls := JFields.ofList_inj _ _ hfs
  simp only [List.cons.injEq, Prod.mk.injEq, true_and, and_true] at hls
  injection hls with harr
  have hlists := congrArg JList.toList harr
  rw [canonList_toList, canonList_toList, JList.toList_ofList, JList.toList_ofList] at hlists
  simp only [List.map_cons, List.cons.injEq] at hlists
  exact hlists.2

theorem hash_input_via_parts (t : JVal) (idx : List (JVal × JVal))
    (sv : Option JVal) (steps ms : List JVal)
    (hsv : pyGet t (S "steps") = .ok sv)
    (hit : pyIter (pyOr sv (jarr [])) = .ok steps)
    (hms : hash_parts idx steps = .ok ms) :
    hash_input t idx = .ok (jobj [(S "parts", jarr (t :: ms))]) := by
  unfold hash_input
  rw [hsv]
  simp only [Bind.bind, Except.bind]
  rw [hit]
  simp only [Except.bind]
  rw [hms]

theorem content_hash_via_parts (h : JVal → Str) (t : JVal) (idx : List (JVal × JVal))
    (sv : Option JVal) (steps ms : List JVal)
    (hsv : pyGet t (S "steps") = .ok sv)
    (hit : pyIter (pyOr sv (jarr [])) = .ok steps)
    (hms : hash_parts idx steps = .ok ms) :
    content_hash_from_docs h t idx =
      .ok (h (canonicalize (jobj [(S "parts", jarr (t :: ms))]))) := by
  unfold content_hash_from_docs
  rw [hash_input_via_parts t idx sv steps ms hsv hit hms]
  rfl

theorem content_hash_via_parts_error (h : JVal → Str) (t : JVal)
    (idx : List (JVal × JVal)) (sv : Option JVal) (steps : List JVal) (m : String)
    (hsv : pyGet t (S "steps") = .ok sv)
    (hit : pyIter (pyOr sv (jarr [])) = .ok steps)
    (hms : hash_parts idx steps = .error m) :
    content_hash_from_docs h t idx = .error m := by
  unfold content_hash_from_docs hash_input
  rw [hsv]
  simp only [Bind.bind, Except.bind]
  rw [hit]
  simp only [Except.bind]
  rw [hms]

theorem content_hash_single_field_ne (h : JVal → Str) (t : JVal)
    (idx : List (JVal × JVal)) (M : Str) (e e' : JVal)
    (l : List (Str × JVal)) (i : Nat) (hi : i < l.length) (v' : JVal) (d : Str)
    (hM : idxFind idx (.str M) = some e)
    (hre : pyGet e (S "raw") = .ok (some (jobj l)))
    (hre' : pyGet e' (S "raw") = .ok (some (jobj (l.set i ((l.get ⟨i, hi⟩).1, v')))))
    (hn : keysNodup l = true)
    (hv : canonicalize (l.get ⟨i, hi⟩).2 ≠ canonicalize v')
    (href : referencesModule t M)
    (hd : content_hash_from_docs h t idx = .ok d) :
    ∃ u u', canonicalize u ≠ canonicalize u' ∧
      content_hash_from_docs h t idx = .ok (h (canonicalize u)) ∧
      content_hash_from_docs h t (assocPut idx (.str M) e') =
        .ok (h (canonicalize u')) := by
  obtain ⟨sv, steps, s, hsv, hit, hsmem, hsty, hsmid⟩ := href
  cases hps : hash_parts idx steps with
  | error m =>
    exfalso
    rw [content_hash_via_parts_error h t idx sv steps m hsv hit hps] at hd
    exact absurd hd (by simp)
  | ok ms =>
    have hMput : idxFind (assocPut idx (.str M) e') (.str M) = some e' :=
      idxFind_assocPut_self idx (.str M) e' rfl
    have hne2 : ∀ k : JVal, k ≠ .str M →
        idxFind idx k = idxFind (assocPut idx (.str M) e') k :=
      fun k hk => (idxFind_assocPut_other idx (.str M) e' k hk).symm
    obtain ⟨ms', hps', hrel, hmem⟩ :=
      hash_parts_update idx (assocPut idx (.str M) e') M e e' (jobj l)
        (jobj (l.set i ((l.get ⟨i, hi⟩).1, v'))) hne2 hM hMput hre hre' steps ms hps
    have hzip := hmem ⟨s, hsmem, hsty, hsmid⟩
    have hrr := single_field_canon_ne l i hi v' hn hv
    have hmaps := map_canon_ne_of_zip (jobj l)
      (jobj (l.set i ((l.get ⟨i, hi⟩).1, v'))) hrr ms ms' hzip
    exact ⟨jobj [(S "parts", jarr (t :: ms))], jobj [(S "parts", jarr (t :: ms'))],
      canon_parts_obj_ne t ms ms' hmaps,
      content_hash_via_parts h t idx sv steps ms hsv hit hps,
      content_hash_via_parts h t (assocPut idx (.str M) e') sv steps ms' hsv hit hps'⟩

/-- C8: the fingerprint _json_sha256 of _content_hash_from_docs is (a)
deterministic - equal inputs give equal results; (b) invariant under
reordering dict fields anywhere in the test document or the resolved module
docs (canonical-form congruence), and (b2) under permuting the module index
itself; and (c) sensitive to a change of a single field of a referenced,
resolvable module's raw document: the two digest preimages have distinct
canonical forms, so any digest function h that separates this pair (no
collision, as for an ideal SHA-256) yields a different digest. -/
theorem c8_fingerprint_determinism_and_sensitivity (h : JVal → Str) :
    (∀ (t : JVal) (idx : List (JVal × JVal)),
      content_hash_from_docs h t idx = content_hash_from_docs h t idx)
    ∧
    (∀ (t t' : JVal) (idx idx' : List (JVal × JVal)), JEqW t t' → IdxRel idx idx' →
      content_hash_from_docs h t idx = content_hash_from_docs h t' idx')
    ∧
    (∀ (t : JVal) (idx idx' : List (JVal × JVal)), wfKeys t = true → idx.Perm idx' →
      idxKeysNodup idx = true → (∀ p ∈ idx, wfKeys p.2 = true) →
      content_hash_from_docs h t idx = content_hash_from_docs h t idx')
    ∧
    (∀ (t : JVal) (idx : List (JVal × JVal)) (M : Str) (e e' : JVal)
       (l : List (Str × JVal)) (i : Nat) (hi : i < l.length) (v' : JVal) (d : Str),
      idxFind idx (.str M) = some e →
      pyGet e (S "raw") = .ok (some (jobj l)) →
      pyGet e' (S "raw") = .ok (some (jobj (l.set i ((l.get ⟨i, hi⟩).1, v')))) →
      keysNodup l = true →
      canonicalize (l.get ⟨i, hi⟩).2 ≠ canonicalize v' →
      referencesModule t M →
      content_hash_from_docs h t idx = .ok d →
      ∃ u u', canonicalize u ≠ canonicalize u' ∧
        content_hash_from_docs h t idx = .ok (h (canonicalize u)) ∧
        content_hash_from_docs h t (assocPut idx (.str M) e') =
          .ok (h (canonicalize u')) ∧
        (h (canonicalize u) ≠ h (canonicalize u') →
          content_hash_from_docs h t (assocPut idx (.str M) e') ≠ .ok d)) := by
  refine ⟨fun t idx => rfl,
    fun t t' idx idx' ht hidx => content_hash_congr h t t' idx idx' ht hidx,
    ?_, ?_⟩
  · intro t idx idx' hwt hp hn hw
    exact content_hash_congr h t t idx idx' (jeqw_refl t hwt) (perm_idxrel idx idx' hp hn hw)
  · intro t idx M e e' l i hi v' d hM hre hre' hn hv href hd
    obtain ⟨u, u', hneq, h1, h2⟩ :=
      content_hash_single_field_ne h t idx M e e' l i hi v' d hM hre hre' hn hv href hd
    refine ⟨u, u', hneq, h1, h2, ?_⟩
    intro hcoll hcontra
    rw [h1] at hd
    rw [h2] at hcontra
    injection hd with hd2
    injection hcontra with hc2
    exact hcoll (hd2.trans hc2.symm)

theorem c8_fingerprint_determinism_and_sensitivity_witness :
    keysNodup [(S "k", jstr "a")] = true ∧
    referencesModule (jobj [(S "steps", jarr [jobj [(S "type", jstr "MODULE"),
      (S "moduleId", JVal.str (S "m1"))]])]) (S "m1") ∧
    (∃ u u', canonicalize u ≠ canonicalize u' ∧
      content_hash_from_docs (fun w => S "")
        (jobj [(S "steps", jarr [jobj [(S "type", jstr "MODULE"),
          (S "moduleId", JVal.str (S "m1"))]])])
        [(JVal.str (S "m1"), jobj [(S "raw", jobj [(S "k", jstr "a")])])] =
        .ok ((fun w => S "") (canonicalize u)) ∧
      content_hash_from_docs (fun w => S "")
        (jobj [(S "steps", jarr [jobj [(S "type", jstr "MODULE"),
          (S "moduleId", JVal.str (S "m1"))]])])
        (assocPut [(JVal.str (S "m1"), jobj [(S "raw", jobj [(S "k", jstr "a")])])]
          (JVal.str (S "m1")) (jobj [(S "raw", jobj [(S "k", jstr "b")])])) =
        .ok ((fun w => S "") (canonicalize u')) ∧
      ((fun w => S "") (canonicalize u) ≠ (fun w => S "") (canonicalize u') →
        content_hash_from_docs (fun w => S "")
          (jobj [(S "steps", jarr [jobj [(S "type", jstr "MODULE"),
            (S "moduleId", JVal.str (S "m1"))]])])
          (assocPut [(JVal.str (S "m1"), jobj [(S "raw", jobj [(S "k", jstr "a")])])]
            (JVal.str (S "m1")) (jobj [(S "raw", jobj [(S "k", jstr "b")])])) ≠
          .ok (S ""))) := by
  refine ⟨rfl, ⟨some (jarr [jobj [(S "type", jstr "MODULE"),
      (S "moduleId", JVal.str (S "m1"))]]),
    [jobj [(S "type", jstr "MODULE"), (S "moduleId", JVal.str (S "m1"))]],
    jobj [(S "type", jstr "MODULE"), (S "moduleId", JVal.str (S "m1"))],
    rfl, rfl, List.mem_singleton.mpr rfl, rfl, rfl⟩, ?_⟩
  exact (c8_fingerprint_determinism_and_sensitivity (fun w => S "")).2.2.2
    (jobj [(S "steps", jarr [jobj [(S "type", jstr "MODULE"),
      (S "moduleId", JVal.str (S "m1"))]])])
    [(JVal.str (S "m1"), jobj [(S "raw", jobj [(S "k", jstr "a")])])]
    (S "m1") (jobj [(S "raw", jobj [(S "k", jstr "a")])])
    (jobj [(S "raw", jobj [(S "k", jstr "b")])])
    [(S "k", jstr "a")] 0 (by decide) (jstr "b") (S "")
    rfl rfl rfl rfl
    (fun hc => by injection hc with hs; exact absurd hs (by decide))
    ⟨some (jarr [jobj [(S "type", jstr "MODULE"),
        (S "moduleId", JVal.str (S "m1"))]]),
      [jobj [(S "type", jstr "MODULE"), (S "moduleId", JVal.str (S "m1"))]],
      jobj [(S "type", jstr "MODULE"), (S "moduleId", JVal.str (S "m1"))],
      rfl, rfl, List.mem_singleton.mpr rfl, rfl, rfl⟩
    rfl
